import Mathlib

/-!
# Tetris (`tetris.cpp`): board, pieces, bag randomizer and game session

A shallow embedding of the game logic of `TetrisGame` and `RandomBag7`.

* The board `array<array<int, COLS>, ROWS>` is a list of rows (row 0 on top),
  each a list of `Int` cells; `-1` is an empty cell.
* `int` fields are `Int` (unbounded); the table indices `kind` and `rotation`
  are `Nat`.
* The three unbounded loops (`clearLines`, the descent loops of `hardDrop`
  and `updateGhost`) recurse on a step budget; the budget passed by the
  callers is shown to be never used up.
* `std::mt19937` together with `std::shuffle` is a field of the bag: the
  `n`-th shuffle of the session applies `shuffle n`.
* Clocks hold the seconds elapsed since their last restart, as rationals;
  `elapse` lets time pass between calls. `float` values are exact rationals
  and `static_cast<int>` is truncation toward zero.
* `Reachable` closes a new game under the eight operations; `Session` adds
  the input events, `handleHeldKeys`, `update` and waits.
-/

namespace Tetris

/-! ## Board configuration -/

def COLS : Nat := 10

def ROWS : Nat := 20

/-! ## Shapes -/

structure Offset where
  x : Int
  y : Int
deriving DecidableEq, Repr

abbrev Shape := List (List Offset)

/-- The table `SHAPES`: I, O, T, S, Z, J, L; 4 rotation states of 4 cells. -/
def SHAPES : List Shape :=
  [ -- I
    [ [⟨0,1⟩, ⟨1,1⟩, ⟨2,1⟩, ⟨3,1⟩],
      [⟨2,0⟩, ⟨2,1⟩, ⟨2,2⟩, ⟨2,3⟩],
      [⟨0,2⟩, ⟨1,2⟩, ⟨2,2⟩, ⟨3,2⟩],
      [⟨1,0⟩, ⟨1,1⟩, ⟨1,2⟩, ⟨1,3⟩] ],
    -- O
    [ [⟨1,1⟩, ⟨2,1⟩, ⟨1,2⟩, ⟨2,2⟩],
      [⟨1,1⟩, ⟨2,1⟩, ⟨1,2⟩, ⟨2,2⟩],
      [⟨1,1⟩, ⟨2,1⟩, ⟨1,2⟩, ⟨2,2⟩],
      [⟨1,1⟩, ⟨2,1⟩, ⟨1,2⟩, ⟨2,2⟩] ],
    -- T
    [ [⟨1,1⟩, ⟨0,2⟩, ⟨1,2⟩, ⟨2,2⟩],
      [⟨1,1⟩, ⟨1,2⟩, ⟨2,2⟩, ⟨1,3⟩],
      [⟨0,2⟩, ⟨1,2⟩, ⟨2,2⟩, ⟨1,3⟩],
      [⟨1,1⟩, ⟨0,2⟩, ⟨1,2⟩, ⟨1,3⟩] ],
    -- S
    [ [⟨1,1⟩, ⟨2,1⟩, ⟨0,2⟩, ⟨1,2⟩],
      [⟨1,1⟩, ⟨1,2⟩, ⟨2,2⟩, ⟨2,3⟩],
      [⟨1,2⟩, ⟨2,2⟩, ⟨0,3⟩, ⟨1,3⟩],
      [⟨0,1⟩, ⟨0,2⟩, ⟨1,2⟩, ⟨1,3⟩] ],
    -- Z
    [ [⟨0,1⟩, ⟨1,1⟩, ⟨1,2⟩, ⟨2,2⟩],
      [⟨2,1⟩, ⟨1,2⟩, ⟨2,2⟩, ⟨1,3⟩],
      [⟨0,2⟩, ⟨1,2⟩, ⟨1,3⟩, ⟨2,3⟩],
      [⟨1,1⟩, ⟨0,2⟩, ⟨1,2⟩, ⟨0,3⟩] ],
    -- J
    [ [⟨0,1⟩, ⟨0,2⟩, ⟨1,2⟩, ⟨2,2⟩],
      [⟨1,1⟩, ⟨2,1⟩, ⟨1,2⟩, ⟨1,3⟩],
      [⟨0,2⟩, ⟨1,2⟩, ⟨2,2⟩, ⟨2,3⟩],
      [⟨1,1⟩, ⟨1,2⟩, ⟨0,3⟩, ⟨1,3⟩] ],
    -- L
    [ [⟨2,1⟩, ⟨0,2⟩, ⟨1,2⟩, ⟨2,2⟩],
      [⟨1,1⟩, ⟨1,2⟩, ⟨1,3⟩, ⟨2,3⟩],
      [⟨0,2⟩, ⟨1,2⟩, ⟨2,2⟩, ⟨0,3⟩],
      [⟨0,1⟩, ⟨1,1⟩, ⟨1,2⟩, ⟨1,3⟩] ] ]

/-- The lookup `SHAPES[kind][rotation]`. Outside `0..6` and `0..3` (undefined
in the source) there are no cells. -/
def shapeCells (kind rotation : Nat) : List Offset :=
  (SHAPES.getD kind []).getD rotation []

structure Piece where
  kind : Nat
  rotation : Nat
  x : Int
  y : Int
deriving DecidableEq, Repr

/-- The copy `next = p; next.y += 1`: the piece one row lower. -/
def Piece.down (p : Piece) : Piece := { p with y := p.y + 1 }

/-- The piece `n` rows lower. -/
def Piece.downBy (p : Piece) (n : Nat) : Piece := { p with y := p.y + n }

/-- The piece placed by `spawnNewPiece` for the kind `kind`. -/
def spawnPiece (kind : Nat) : Piece := ⟨kind, 0, 3, -1⟩

/-! ## Board -/

abbrev Board := List (List Int)

/-- A board of `ROWS` rows of `COLS` cells. -/
def Board.WF (b : Board) : Prop :=
  b.length = ROWS ∧ ∀ row ∈ b, row.length = COLS

instance (b : Board) : Decidable b.WF :=
  inferInstanceAs (Decidable (b.length = ROWS ∧ ∀ row ∈ b, row.length = COLS))

/-- A row after `fill(-1)`. -/
def emptyRow : List Int := List.replicate COLS (-1)

/-- The board after `clearBoard`. -/
def emptyBoard : Board := List.replicate ROWS emptyRow

/-- The read `board[r][c]`. -/
def cellAt (b : Board) (r c : Nat) : Int :=
  (b.getD r []).getD c (-1)

/-- The write `board[r][c] = v`. -/
def setCell (b : Board) (r c : Nat) (v : Int) : Board :=
  b.set r ((b.getD r []).set c v)

/-- The body of `canPlace`'s loop over the cells, with its early returns. -/
def canPlaceCells (b : Board) (p : Piece) : List Offset → Bool
  | [] => true
  | c :: cs =>
    let bx := p.x + c.x
    let by_ := p.y + c.y
    if bx < 0 ∨ bx ≥ COLS then false
    else if by_ ≥ ROWS then false
    else if by_ ≥ 0 ∧ cellAt b by_.toNat bx.toNat ≠ -1 then false
    else canPlaceCells b p cs

def canPlace (b : Board) (p : Piece) : Bool :=
  canPlaceCells b p (shapeCells p.kind p.rotation)

/-- The cell-marking loop of `lockPiece`. -/
def markCells (kind : Nat) (px py : Int) : Board → List Offset → Board
  | b, [] => b
  | b, c :: cs =>
    let bx := px + c.x
    let by_ := py + c.y
    if by_ ≥ 0 ∧ by_ < ROWS ∧ bx ≥ 0 ∧ bx < COLS then
      markCells kind px py (setCell b by_.toNat bx.toNat kind) cs
    else markCells kind px py b cs

/-- The test of one row in `clearLines`: no column `0..COLS-1` holds `-1`. -/
def rowFull (row : List Int) : Bool :=
  (List.range COLS).all (fun c => row.getD c (-1) != -1)

/-- The inner loop `for (rr = r; rr > 0; --rr) board[rr] = board[rr - 1]`. -/
def shiftRowsDown (b : Board) : Nat → Board
  | 0 => b
  | rr + 1 => shiftRowsDown (b.set (rr + 1) (b.getD rr [])) rr

/-- The collapse of row `r`: shift the rows above down, empty row 0. -/
def collapseRow (b : Board) (r : Nat) : Board :=
  (shiftRowsDown b r).set 0 emptyRow

/-- The outer loop of `clearLines` from row index `r`, returning the board and
the counter `cleared`. A full row is collapsed and the same index is examined
again (`++r` then `--r`). -/
def clearLinesLoop : Nat → Int → Board → Int → Board × Int
  | 0, _, b, cleared => (b, cleared)
  | fuel + 1, r, b, cleared =>
    if r < 0 then (b, cleared)
    else if rowFull (b.getD r.toNat []) then
      clearLinesLoop fuel r (collapseRow b r.toNat) (cleared + 1)
    else clearLinesLoop fuel (r - 1) b cleared

/-- The step budget of `clearLinesLoop`: every row is left once and cleared at
most once, and the loop test runs once more. -/
def clearFuel : Nat := 2 * ROWS + 1

/-- The table `GRAVITY_LEVELS`, seconds per cell. -/
def GRAVITY_LEVELS : List ℚ :=
  [0.8, 0.7, 0.6, 0.5, 0.4, 0.35, 0.3, 0.25, 0.20, 0.18,
   0.16, 0.14, 0.12, 0.10, 0.09, 0.08, 0.075, 0.07, 0.065, 0.06]

def scoreForClears (count lvl : Int) : Int :=
  if count = 1 then 40 * (lvl + 1)
  else if count = 2 then 100 * (lvl + 1)
  else if count = 3 then 300 * (lvl + 1)
  else if count = 4 then 1200 * (lvl + 1)
  else 0

/-! ## The bag randomizer -/

/-- The class `RandomBag7`. The generator `rng` is the pair of `shuffle`, the
outcome of each call of `std::shuffle` in order, and `shuffles`, the number of
calls made so far. -/
structure RandomBag7 where
  shuffle : Nat → List Nat → List Nat
  shuffles : Nat
  bag : List Nat
  bagIndex : Nat

/-- Every outcome of `std::shuffle` rearranges its input. -/
def RandomBag7.Shuffles (shuffle : Nat → List Nat → List Nat) : Prop :=
  ∀ n l, (shuffle n l).Perm l

def RandomBag7.refill (s : RandomBag7) : RandomBag7 :=
  { s with
    bag := s.shuffle s.shuffles (List.range 7)
    shuffles := s.shuffles + 1
    bagIndex := 0 }

/-- The constructor: `bag{}`, `bagIndex = 7`, then `refill()`. -/
def RandomBag7.new (shuffle : Nat → List Nat → List Nat) : RandomBag7 :=
  RandomBag7.refill
    { shuffle := shuffle, shuffles := 0, bag := List.replicate 7 0, bagIndex := 7 }

/-- The method `next`: the value returned and the bag afterwards. -/
def RandomBag7.next (s : RandomBag7) : Nat × RandomBag7 :=
  let s1 := if s.bagIndex ≥ 7 then s.refill else s
  (s1.bag.getD s1.bagIndex 0, { s1 with bagIndex := s1.bagIndex + 1 })

/-- The values returned by `n` successive calls of `next`, and the bag
afterwards. -/
def RandomBag7.draws : Nat → RandomBag7 → List Nat × RandomBag7
  | 0, s => ([], s)
  | n + 1, s =>
    let r := s.next
    let rest := RandomBag7.draws n r.2
    (r.1 :: rest.1, rest.2)

/-! ## The game session -/

/-- The members of `TetrisGame` with their default initialisers. A clock is
the time in seconds since its last restart. `carry` and `softClock` are the
function-local statics `carry` and `soft` of `handleHeldKeys`; `soft` is
constructed (`none` before) when control first passes its declaration. -/
structure Game where
  windowOpen : Bool := true
  board : Board := List.replicate ROWS (List.replicate COLS 0)
  current : Piece := ⟨0, 0, 0, 0⟩
  ghost : Option Piece := none
  score : Int := 0
  linesCleared : Int := 0
  level : Int := 0
  isGameOver : Bool := false
  isPaused : Bool := false
  gravityClock : ℚ := 0
  lateralRepeatClock : ℚ := 0
  leftHeld : Bool := false
  rightHeld : Bool := false
  downHeld : Bool := false
  carry : ℚ := 0
  softClock : Option ℚ := none
  bag : RandomBag7

/-- The step budget of a descent from `p`: below row `ROWS` nothing is
placeable. -/
def dropFuel (p : Piece) : Nat := ((ROWS : Int) - p.y).toNat + 1

/-- The loop of `updateGhost`. -/
def ghostLoop (b : Board) : Nat → Piece → Piece
  | 0, g => g
  | fuel + 1, g =>
    let next := g.down
    if canPlace b next then ghostLoop b fuel next else g

def updateGhost (g : Game) : Game :=
  { g with ghost := some (ghostLoop g.board (dropFuel g.current) g.current) }

def spawnNewPiece (g : Game) : Game :=
  let r := g.bag.next
  let g1 := { g with
    bag := r.2
    current := { kind := r.1, rotation := 0, x := ((COLS / 2 : Nat) : Int) - 2, y := -1 } }
  let g2 := if !canPlace g1.board g1.current then { g1 with isGameOver := true } else g1
  let g3 := updateGhost g2
  { g3 with gravityClock := 0 }

def clearLines (g : Game) : Game :=
  let r := clearLinesLoop clearFuel ((ROWS : Int) - 1) g.board 0
  let g1 := { g with board := r.1 }
  if r.2 > 0 then
    { g1 with
      linesCleared := g1.linesCleared + r.2
      score := g1.score + scoreForClears r.2 g1.level
      level := min 19 (Int.tdiv (g1.linesCleared + r.2) 10) }
  else g1

/-- The board after the cell-marking loop of `lockPiece` for the piece `p`. -/
def markPiece (b : Board) (p : Piece) : Board :=
  markCells p.kind p.x p.y b (shapeCells p.kind p.rotation)

def lockPiece (g : Game) : Game :=
  let g1 := { g with board := markPiece g.board g.current }
  spawnNewPiece (clearLines g1)

def softDropStep (g : Game) : Game :=
  let moved := g.current.down
  let g1 :=
    if canPlace g.board moved then { g with current := moved, score := g.score + 1 }
    else lockPiece g
  updateGhost g1

def gravityStep (g : Game) : Game :=
  let moved := g.current.down
  let g1 := if canPlace g.board moved then { g with current := moved } else lockPiece g
  updateGhost g1

/-- The loop of `hardDrop`: the landing piece and the distance `dist`. -/
def hardDropLoop (b : Board) : Nat → Piece → Int → Piece × Int
  | 0, moved, dist => (moved, dist)
  | fuel + 1, moved, dist =>
    let next := moved.down
    if canPlace b next then hardDropLoop b fuel next (dist + 1) else (moved, dist)

def hardDrop (g : Game) : Game :=
  let r := hardDropLoop g.board (dropFuel g.current) g.current 0
  let g1 := { g with current := r.1, score := g.score + r.2 * 2 }
  updateGhost (lockPiece g1)

def kicks : List Int := [0, -1, 1, -2, 2]

/-- The wall-kick loop of `rotate`: the first placeable test piece, if any. -/
def kickLoop (b : Board) (rotated : Piece) : List Int → Option Piece
  | [] => none
  | k :: ks =>
    let test := { rotated with x := rotated.x + k }
    if canPlace b test then some test else kickLoop b rotated ks

def rotate (g : Game) (dir : Int) : Game :=
  let rotated :=
    { g.current with rotation := (g.current.rotation + (if dir > 0 then 1 else 3)) % 4 }
  let g1 :=
    match kickLoop g.board rotated kicks with
    | some test => { g with current := test }
    | none => g
  updateGhost g1

def moveHorizontal (g : Game) (dx : Int) : Game :=
  let moved := { g.current with x := g.current.x + dx }
  let g1 := if canPlace g.board moved then { g with current := moved } else g
  updateGhost g1

/-- The constructor of `TetrisGame`: `clearBoard()` then `spawnNewPiece()`. -/
def newGame (shuffle : Nat → List Nat → List Nat) : Game :=
  spawnNewPiece { board := emptyBoard, bag := RandomBag7.new shuffle }

/-! ## Input events -/

inductive Key where
  | escape | p | up | x | z | space | left | right | down | other
deriving DecidableEq, Repr

inductive Event where
  | closed
  | keyPressed (code : Key)
  | keyReleased (code : Key)
  | other
deriving DecidableEq, Repr

/-- The part of `handleInput` for a pressed key after the pause test. -/
def handleGameKey (g : Game) (code : Key) : Game :=
  let g1 := if code = Key.up ∨ code = Key.x then rotate g 1 else g
  let g2 := if code = Key.z then rotate g1 (-1) else g1
  let g3 := if code = Key.space then hardDrop g2 else g2
  let g4 :=
    if code = Key.left then
      { moveHorizontal g3 (-1) with leftHeld := true, rightHeld := false, lateralRepeatClock := 0 }
    else g3
  let g5 :=
    if code = Key.right then
      { moveHorizontal g4 1 with rightHeld := true, leftHeld := false, lateralRepeatClock := 0 }
    else g4
  if code = Key.down then { g5 with downHeld := true } else g5

/-- The body of the event loop of `handleInput` for one event. -/
def handleEvent (g : Game) (e : Event) : Game :=
  match e with
  | Event.closed => { g with windowOpen := false }
  | Event.keyPressed code =>
    let g1 := if code = Key.escape then { g with windowOpen := false } else g
    let g2 := if code = Key.p then { g1 with isPaused := !g1.isPaused } else g1
    if g2.isGameOver || g2.isPaused then g2 else handleGameKey g2 code
  | Event.keyReleased code =>
    let g1 := if code = Key.left then { g with leftHeld := false } else g
    let g2 := if code = Key.right then { g1 with rightHeld := false } else g1
    if code = Key.down then { g2 with downHeld := false } else g2
  | Event.other => g

/-- The event loop of `handleInput` over the queued events; a closed window
yields no further event. -/
def handleInput : Game → List Event → Game
  | g, [] => g
  | g, e :: es => if g.windowOpen then handleInput (handleEvent g e) es else g

/-! ## Held keys and the frame update -/

/-- The lookup `GRAVITY_LEVELS[level]`. -/
def currentGravityInterval (g : Game) : ℚ :=
  GRAVITY_LEVELS.getD g.level.toNat 0

/-- The constant `das` of `handleHeldKeys`. -/
def das : ℚ := 0.18

/-- The constant `arr` of `handleHeldKeys`. -/
def arr : ℚ := 0.05

/-- The conversion `static_cast<int>`: truncation toward zero. -/
def truncToInt (q : ℚ) : Int := if 0 ≤ q then ⌊q⌋ else ⌈q⌉

/-- The loop `for (i = 0; i < moves; ++i) moveHorizontal(leftHeld ? -1 : +1)`,
with `n` iterations left. -/
def repeatMove : Nat → Game → Game
  | 0, g => g
  | n + 1, g => repeatMove n (moveHorizontal g (if g.leftHeld then -1 else 1))

/-- The lateral auto-repeat block of `handleHeldKeys`: the number of calls of
`moveHorizontal` it makes and the state afterwards. -/
def lateralRepeat (g : Game) : Nat × Game :=
  if g.leftHeld || g.rightHeld then
    let t := g.lateralRepeatClock
    if t > das then
      let steps := (t - das + g.carry) / arr
      let moves := truncToInt steps
      let g1 := { g with
        carry := (t - das + g.carry) - moves * arr
        lateralRepeatClock := 0 }
      (moves.toNat, repeatMove moves.toNat g1)
    else (0, g)
  else (0, g)

/-- The soft-drop block of `handleHeldKeys`. -/
def softRepeat (g : Game) : Game :=
  if g.downHeld then
    let elapsed := g.softClock.getD 0
    let g1 := { g with softClock := some elapsed }
    if elapsed > 0.03 then softDropStep { g1 with softClock := some 0 } else g1
  else g

def handleHeldKeys (g : Game) : Game :=
  if g.isGameOver || g.isPaused then g
  else softRepeat (lateralRepeat g).2

def update (g : Game) : Game :=
  let g1 := handleHeldKeys g
  if g1.isGameOver || g1.isPaused then g1
  else if g1.gravityClock ≥ currentGravityInterval g1 then
    gravityStep { g1 with gravityClock := 0 }
  else g1

/-- The passing of `dt` seconds: every running clock advances. -/
def elapse (dt : ℚ) (g : Game) : Game :=
  { g with
    gravityClock := g.gravityClock + dt
    lateralRepeatClock := g.lateralRepeatClock + dt
    softClock := g.softClock.map (fun t => t + dt) }

/-- Successive frames of lengths `dts`, each a wait followed by a call of
`handleHeldKeys`: the total number of auto-repeat calls of `moveHorizontal`
and the state afterwards. -/
def heldFrames : List ℚ → Game → Nat × Game
  | [], g => (0, g)
  | dt :: dts, g =>
    let g1 := elapse dt g
    let r := heldFrames dts (handleHeldKeys g1)
    ((if g1.isGameOver || g1.isPaused then 0 else (lateralRepeat g1).1) + r.1, r.2)

/-! ## Reachable states -/

/-- The operations on the game state. -/
inductive Op where
  | moveHorizontal (dx : Int)
  | rotate (dir : Int)
  | softDropStep
  | gravityStep
  | hardDrop
  | lockPiece
  | clearLines
  | spawnNewPiece

def Op.run : Op → Game → Game
  | Op.moveHorizontal dx, g => Tetris.moveHorizontal g dx
  | Op.rotate dir, g => Tetris.rotate g dir
  | Op.softDropStep, g => Tetris.softDropStep g
  | Op.gravityStep, g => Tetris.gravityStep g
  | Op.hardDrop, g => Tetris.hardDrop g
  | Op.lockPiece, g => Tetris.lockPiece g
  | Op.clearLines, g => Tetris.clearLines g
  | Op.spawnNewPiece, g => Tetris.spawnNewPiece g

/-- The states reached from a new game by the operations. -/
inductive Reachable : Game → Prop where
  | init (shuffle : Nat → List Nat → List Nat) (h : RandomBag7.Shuffles shuffle) :
      Reachable (newGame shuffle)
  | step (g : Game) (op : Op) (h : Reachable g) : Reachable (op.run g)

/-- The states of a session: those reached from a new game by the operations,
input events, calls of `handleHeldKeys` and `update`, and waits. -/
inductive Session : Game → Prop where
  | init (shuffle : Nat → List Nat → List Nat) (h : RandomBag7.Shuffles shuffle) :
      Session (newGame shuffle)
  | op (g : Game) (o : Op) (h : Session g) : Session (o.run g)
  | event (g : Game) (e : Event) (h : Session g) : Session (handleEvent g e)
  | held (g : Game) (h : Session g) : Session (handleHeldKeys g)
  | frame (g : Game) (h : Session g) : Session (update g)
  | wait (g : Game) (dt : ℚ) (hdt : 0 ≤ dt) (h : Session g) : Session (elapse dt g)

/-! ## Invariants -/

/-- The bag is either used up or holds a fresh permutation of the kinds. -/
def BagReady (s : RandomBag7) : Prop :=
  RandomBag7.Shuffles s.shuffle ∧ (s.bagIndex ≥ 7 ∨ (s.bagIndex = 0 ∧ s.bag.Perm (List.range 7)))

/-- The sign condition on the counters under which the score cannot drop. -/
def CountersOk (g : Game) : Prop := 0 ≤ g.level ∧ 0 ≤ g.linesCleared

/-- The level is the one computed from the line count. -/
def LevelOk (g : Game) : Prop :=
  g.level = min 19 (Int.tdiv g.linesCleared 10) ∧ 0 ≤ g.linesCleared

/-- A running game with Left held and Down not held, whose lateral repeat
clock reads `t` and whose carry is `c`. -/
def Holding (g : Game) (t c : ℚ) : Prop :=
  g.isGameOver = false ∧ g.isPaused = false ∧ g.leftHeld = true ∧ g.downHeld = false
    ∧ g.lateralRepeatClock = t ∧ g.carry = c

/-! ## Example states -/

/-- A game with a full bottom row. -/
def fullRowGame : Game :=
  { board := List.replicate 19 emptyRow ++ [List.replicate 10 2],
    bag := RandomBag7.new (fun _ l => l) }

/-- The O piece at the spawn position. -/
def spawnO : Piece := ⟨1, 0, 3, -1⟩

/-- A game at level 5 whose current I piece completes the bottom row. -/
def lineGame : Game :=
  { board := List.replicate 19 emptyRow ++ [[2, 2, 2, -1, -1, -1, -1, 2, 2, 2]],
    current := ⟨0, 0, 3, 18⟩,
    linesCleared := 50,
    level := 5,
    bag := RandomBag7.new (fun _ l => l) }

/-- A row holding the O piece in columns 4 and 5. -/
def rowWithO : List Int := [-1, -1, -1, -1, 1, 1, -1, -1, -1, -1]

/-- A game on the empty board with the O piece at the spawn position. -/
def spawnOGame : Game :=
  { board := emptyBoard, current := spawnO, bag := RandomBag7.new (fun _ l => l) }

/-- A board whose bottom row is occupied except in column 3. -/
def holeBoard : Board :=
  List.replicate 19 emptyRow ++ [[2, 2, 2, -1, 2, 2, 2, 2, 2, 2]]

/-- A game on `holeBoard` with the vertical I piece above the hole. -/
def holeGame : Game :=
  { board := holeBoard, current := ⟨0, 1, 1, 16⟩, bag := RandomBag7.new (fun _ l => l) }

/-- The game after `n` hard drops in a row. -/
def hardDrops : Nat → Game → Game
  | 0, g => g
  | n + 1, g => hardDrops n (hardDrop g)

/-- A new game whose first 11 pieces were hard-dropped from the spawn
position. -/
def stackedGame : Game := hardDrops 11 (newGame (fun _ l => l))

/-- A new game in which Left was pressed and then held for `das` seconds. -/
def heldGame : Game :=
  elapse das (handleEvent (newGame (fun _ l => l)) (Event.keyPressed Key.left))

/-- Two states with the same board, current piece and game-over flag. -/
def SamePlayfield (a b : Game) : Prop :=
  a.board = b.board ∧ a.current = b.current ∧ a.isGameOver = b.isGameOver

/-- A 20x10 board without a full row. -/
def NoFullRow (b : Board) : Prop :=
  b.WF ∧ ∀ row ∈ b, rowFull row = false

/-- The current piece is placeable unless the game is over. -/
def Validated (g : Game) : Prop :=
  g.isGameOver = true ∨ canPlace g.board g.current = true

/-- The invariant of the playfield between operations. -/
def Sound (g : Game) : Prop :=
  NoFullRow g.board ∧ Validated g

end Tetris

/-!
# Snake (`snake.cpp`)

A shallow embedding of `SnakeGame`. `int` fields are `Int`. The values
returned by successive calls of `rand()` are a field of the state, `rand`,
with the number of calls made so far. The `do ... while` loop of
`generateFood` recurses on a step budget and returns `none` when the budget is
used up.
-/

namespace Snake

def GRID_WIDTH : Int := 20

def GRID_HEIGHT : Int := 20

inductive Direction where
  | UP | DOWN | LEFT | RIGHT | NONE
deriving DecidableEq, Repr

structure Position where
  x : Int
  y : Int
deriving DecidableEq, Repr

/-- The members of `SnakeGame`. -/
structure SnakeGame where
  windowOpen : Bool
  snake : List Position
  food : Position
  dir : Direction
  nextDir : Direction
  gameOver : Bool
  score : Int
  rand : Nat → Nat
  randCalls : Nat

/-- The loop of `isSnakePosition` over the segments. -/
def isSnakePosition : List Position → Position → Bool
  | [], _ => false
  | segment :: rest, pos => if segment = pos then true else isSnakePosition rest pos

/-- The loop of `generateFood`: each pass draws `food.x` and `food.y` and
repeats while the food lies on the snake. -/
def generateFood : Nat → SnakeGame → Option SnakeGame
  | 0, _ => none
  | fuel + 1, s =>
    let s1 := { s with
      food := ⟨(s.rand s.randCalls : Int) % GRID_WIDTH, s.food.y⟩
      randCalls := s.randCalls + 1 }
    let s2 := { s1 with
      food := ⟨s1.food.x, (s1.rand s1.randCalls : Int) % GRID_HEIGHT⟩
      randCalls := s1.randCalls + 1 }
    if isSnakePosition s2.snake s2.food then generateFood fuel s2 else some s2

inductive Key where
  | up | w | down | s | left | a | right | d | escape | other
deriving DecidableEq, Repr

inductive Event where
  | closed
  | keyPressed (code : Key)
  | other
deriving DecidableEq, Repr

/-- The body of the event loop of `handleInput` for one event. -/
def handleEvent (g : SnakeGame) (e : Event) : SnakeGame :=
  match e with
  | Event.closed => { g with windowOpen := false, gameOver := true }
  | Event.keyPressed code =>
    match code with
    | Key.up | Key.w => if g.dir ≠ Direction.DOWN then { g with nextDir := Direction.UP } else g
    | Key.down | Key.s => if g.dir ≠ Direction.UP then { g with nextDir := Direction.DOWN } else g
    | Key.left | Key.a =>
      if g.dir ≠ Direction.RIGHT then { g with nextDir := Direction.LEFT } else g
    | Key.right | Key.d =>
      if g.dir ≠ Direction.LEFT then { g with nextDir := Direction.RIGHT } else g
    | Key.escape => { g with windowOpen := false, gameOver := true }
    | Key.other => g
  | Event.other => g

/-- The event loop of `handleInput` over the queued events; a closed window
yields no further event. -/
def handleInput : SnakeGame → List Event → SnakeGame
  | g, [] => g
  | g, e :: es => if g.windowOpen then handleInput (handleEvent g e) es else g

/-- The first statement of `moveSnake`: a pending direction is applied. -/
def applyNextDir (g : SnakeGame) : SnakeGame :=
  if g.nextDir ≠ Direction.NONE then { g with dir := g.nextDir, nextDir := Direction.NONE }
  else g

/-- The `switch (dir)` of `moveSnake`: the moved head, or `none` for the
`default: return`. -/
def movedHead (dir : Direction) (head : Position) : Option Position :=
  match dir with
  | Direction.UP => some { head with y := head.y - 1 }
  | Direction.DOWN => some { head with y := head.y + 1 }
  | Direction.LEFT => some { head with x := head.x - 1 }
  | Direction.RIGHT => some { head with x := head.x + 1 }
  | Direction.NONE => none

/-- The method `moveSnake`; `fuel` is the budget of the call of
`generateFood`. The read `snake[0]` of an empty snake (undefined in the
source) gives `Position()`. -/
def moveSnake (fuel : Nat) (g : SnakeGame) : Option SnakeGame :=
  let g1 := applyNextDir g
  match movedHead g1.dir (g1.snake.getD 0 ⟨0, 0⟩) with
  | none => some g1
  | some head =>
    if head.x < 0 ∨ head.x ≥ GRID_WIDTH ∨ head.y < 0 ∨ head.y ≥ GRID_HEIGHT then
      some { g1 with gameOver := true }
    else if isSnakePosition g1.snake head then
      some { g1 with gameOver := true }
    else
      let g2 := { g1 with snake := head :: g1.snake }
      if head = g2.food then generateFood fuel { g2 with score := g2.score + 1 }
      else some { g2 with snake := g2.snake.dropLast }

/-- The constructor of `SnakeGame`; `fuel` is the budget of its call of
`generateFood`. -/
def newSnakeGame (fuel : Nat) (rand : Nat → Nat) : Option SnakeGame :=
  generateFood fuel
    { windowOpen := true
      snake := [⟨GRID_WIDTH / 2, GRID_HEIGHT / 2⟩, ⟨GRID_WIDTH / 2 - 1, GRID_HEIGHT / 2⟩,
        ⟨GRID_WIDTH / 2 - 2, GRID_HEIGHT / 2⟩]
      food := ⟨0, 0⟩
      dir := Direction.RIGHT
      nextDir := Direction.NONE
      gameOver := false
      score := 0
      rand := rand
      randCalls := 0 }

/-! ## Reachable states -/

/-- The states of a run: the constructed game, then calls of `handleInput`
and of `moveSnake` that return. -/
inductive Run : SnakeGame → Prop where
  | init (fuel : Nat) (rand : Nat → Nat) (g : SnakeGame) (h : newSnakeGame fuel rand = some g) :
      Run g
  | input (g : SnakeGame) (events : List Event) (h : Run g) : Run (handleInput g events)
  | move (g g' : SnakeGame) (fuel : Nat) (h : Run g) (hm : moveSnake fuel g = some g') : Run g'

/-- A position inside the grid. -/
def InGrid (p : Position) : Prop :=
  0 ≤ p.x ∧ p.x < GRID_WIDTH ∧ 0 ≤ p.y ∧ p.y < GRID_HEIGHT

/-- The segments of the snake are pairwise distinct and inside the grid. -/
def Body (g : SnakeGame) : Prop :=
  g.snake.Nodup ∧ ∀ seg ∈ g.snake, InGrid seg

/-- The food drawn by pass `n` of the loop of `generateFood` started after
`calls` calls of `rand`. -/
def foodDrawn (rand : Nat → Nat) (calls n : Nat) : Position :=
  ⟨(rand (calls + 2 * n) : Int) % GRID_WIDTH, (rand (calls + 2 * n + 1) : Int) % GRID_HEIGHT⟩

/-- The head computed by `moveSnake`, if the direction applied is one of the
four. -/
def newHead (g : SnakeGame) : Option Position :=
  movedHead (applyNextDir g).dir (g.snake.getD 0 ⟨0, 0⟩)

/-- The cell number `i` of the path that sweeps the grid row by row, to the
right in even rows and to the left in odd rows. -/
def pathCell (i : Nat) : Position :=
  ⟨((if (i / 20) % 2 = 0 then i % 20 else 19 - i % 20 : Nat) : Int), ((i / 20 : Nat) : Int)⟩

/-- A game whose snake lies on the cells 1 to 399 of the path, head first,
with the food on the one free cell, cell 0, just left of the head. -/
def fullGridGame (rand : Nat → Nat) (calls : Nat) : SnakeGame :=
  { windowOpen := true
    snake := (List.range 399).map (fun i => pathCell (i + 1))
    food := pathCell 0
    dir := Direction.LEFT
    nextDir := Direction.NONE
    gameOver := false
    score := 396
    rand := rand
    randCalls := calls }

/-- The exact opposites: UP/DOWN and LEFT/RIGHT. -/
def isOpposite : Direction → Direction → Bool
  | Direction.UP, Direction.DOWN => true
  | Direction.DOWN, Direction.UP => true
  | Direction.LEFT, Direction.RIGHT => true
  | Direction.RIGHT, Direction.LEFT => true
  | _, _ => false

/-- The second segment lies directly behind the head with respect to `dir`. -/
def NeckBehind (g : SnakeGame) : Prop :=
  ∃ head neck rest, g.snake = head :: neck :: rest ∧ movedHead g.dir neck = some head

/-- The invariant of a run. -/
def RunInv (g : SnakeGame) : Prop :=
  Body g ∧ 3 ≤ g.snake.length ∧ g.score = (g.snake.length : Int) - 3
    ∧ g.dir ≠ Direction.NONE
    ∧ isOpposite g.nextDir g.dir = false
    ∧ (g.gameOver = false → NeckBehind g)

/-- A random source that always returns 0. -/
def zeroRand : Nat → Nat := fun _ => 0

/-- The state built by the constructor when `rand` always returns 0: the
first draw puts the food on `(0, 0)`, which is free. -/
def startGame : SnakeGame :=
  { windowOpen := true
    snake := [⟨10, 10⟩, ⟨9, 10⟩, ⟨8, 10⟩]
    food := ⟨0, 0⟩
    dir := Direction.RIGHT
    nextDir := Direction.NONE
    gameOver := false
    score := 0
    rand := zeroRand
    randCalls := 2 }

end Snake

/-! # Theorems -/

namespace Tetris

/-! ## Line clearing -/

theorem shiftRowsDown_length (b : Board) (r : Nat) : (shiftRowsDown b r).length = b.length := by
  induction r generalizing b with
  | zero => rfl
  | succ r ih => simp [shiftRowsDown, ih]

theorem shiftRowsDown_getElem? (b : Board) (r : Nat) (hr : r < b.length) (i : Nat) :
    (shiftRowsDown b r)[i]? = if i = 0 then b[0]? else if i ≤ r then b[i - 1]? else b[i]? := by
  induction r generalizing b with
  | zero =>
    by_cases hi : i = 0
    · simp [shiftRowsDown, hi]
    · have : ¬ i ≤ 0 := by omega
      simp [shiftRowsDown, hi]
  | succ r ih =>
    have hr' : r < (b.set (r + 1) (b.getD r [])).length := by simp; omega
    rw [shiftRowsDown, ih _ hr']
    by_cases h0 : i = 0
    · simp [h0, List.getElem?_set]
    · by_cases h1 : i ≤ r
      · have h2 : i ≤ r + 1 := by omega
        have h3 : ¬ r + 1 = i - 1 := by omega
        simp [h0, h1, h2, List.getElem?_set, h3]
      · by_cases h2 : i = r + 1
        · subst h2
          have h4 : r < b.length := by omega
          simp [List.getElem?_set, hr, List.getElem?_eq_getElem h4]
        · have h3 : ¬ i ≤ r + 1 := by omega
          have h4 : ¬ r + 1 = i := by omega
          simp [h0, h1, h3, List.getElem?_set, h4]

theorem collapseRow_eq (b : Board) (r : Nat) (hr : r < b.length) :
    collapseRow b r = emptyRow :: (b.take r ++ b.drop (r + 1)) := by
  apply List.ext_getElem?
  intro i
  unfold collapseRow
  rw [List.getElem?_set]
  cases i with
  | zero =>
    have : 0 < b.length := by omega
    simp [shiftRowsDown_length, this]
  | succ j =>
    rw [shiftRowsDown_getElem? b r hr]
    have hlen : (List.take r b).length = r := by simp; omega
    by_cases hj : j < r
    · have h1 : j + 1 ≤ r := by omega
      have h2 : j < (List.take r b).length := by omega
      rw [List.getElem?_cons_succ, List.getElem?_append_left h2, List.getElem?_take]
      simp [h1, hj]
    · have h1 : ¬ j + 1 ≤ r := by omega
      have h2 : (List.take r b).length ≤ j := by omega
      rw [List.getElem?_cons_succ, List.getElem?_append_right h2, List.getElem?_drop, hlen]
      simp [h1]
      congr 1
      omega

theorem rowFull_emptyRow : rowFull emptyRow = false := by decide

theorem clearLinesLoop_eq (fuel n : Nat) (b : Board) (c : Int) (hn : n ≤ b.length)
    (hfuel : n + (b.take n).countP rowFull + 1 ≤ fuel) :
    clearLinesLoop fuel ((n : Int) - 1) b c =
      (List.replicate ((b.take n).countP rowFull) emptyRow
          ++ (b.take n).filter (fun row => !rowFull row) ++ b.drop n,
        c + ((b.take n).countP rowFull : Nat)) := by
  induction fuel generalizing n b c with
  | zero => omega
  | succ fuel ih =>
    cases n with
    | zero => simp [clearLinesLoop]
    | succ m =>
      have hm : m < b.length := hn
      have hr : ¬ (((m + 1 : Nat) : Int) - 1 < 0) := by omega
      have ht : (((m + 1 : Nat) : Int) - 1).toNat = m := by omega
      have hget : b.getD m [] = b[m] := by simp [List.getElem?_eq_getElem hm]
      have htake : b.take (m + 1) = b.take m ++ [b[m]] := by
        rw [List.take_succ, List.getElem?_eq_getElem hm]; rfl
      rw [clearLinesLoop, if_neg hr, ht, hget]
      by_cases hfull : rowFull b[m] = true
      · rw [if_pos hfull, collapseRow_eq b m hm]
        have hlen : (b.take m).length = m := by simp; omega
        have htake' : (emptyRow :: (b.take m ++ b.drop (m + 1))).take (m + 1)
            = emptyRow :: b.take m := by
          rw [List.take_succ_cons, List.take_append_of_le_length (by omega), List.take_of_length_le (by omega)]
        have hdrop' : (emptyRow :: (b.take m ++ b.drop (m + 1))).drop (m + 1)
            = b.drop (m + 1) := by
          rw [List.drop_succ_cons, List.drop_left' hlen]
        have hk : (b.take (m + 1)).countP rowFull = (b.take m).countP rowFull + 1 := by
          rw [htake, List.countP_append]; simp [hfull]
        have hk' : (emptyRow :: b.take m).countP rowFull = (b.take m).countP rowFull := by
          simp [rowFull_emptyRow]
        have hf1 : (b.take (m + 1)).filter (fun row => !rowFull row)
            = (b.take m).filter (fun row => !rowFull row) := by
          rw [htake, List.filter_append]; simp [hfull]
        have hf2 : (emptyRow :: b.take m).filter (fun row => !rowFull row)
            = emptyRow :: (b.take m).filter (fun row => !rowFull row) := by
          simp [rowFull_emptyRow]
        rw [hk] at hfuel
        rw [ih (m + 1) _ (c + 1) (by simp; omega) (by rw [htake', hk']; omega)]
        rw [htake', hdrop', hk, hk', hf1, hf2, List.replicate_succ']
        simp
        omega
      · rw [if_neg hfull]
        have hk : (b.take (m + 1)).countP rowFull = (b.take m).countP rowFull := by
          rw [htake, List.countP_append]; simp [hfull]
        have hf1 : (b.take (m + 1)).filter (fun row => !rowFull row)
            = (b.take m).filter (fun row => !rowFull row) ++ [b[m]] := by
          rw [htake, List.filter_append]; simp [hfull]
        rw [hk] at hfuel
        have hr1 : ((m + 1 : Nat) : Int) - 1 - 1 = (m : Int) - 1 := by omega
        have hd : b.drop m = b[m] :: b.drop (m + 1) := List.drop_eq_getElem_cons hm
        rw [hr1, ih m b c (by omega) (by omega), hk, hf1, hd]
        simp

/-- The loop of `clearLines` on a board of `ROWS` rows: the full rows are
replaced by as many empty rows on top, and `cleared` counts them. -/
theorem clearLinesLoop_board (b : Board) (hlen : b.length = ROWS) :
    clearLinesLoop clearFuel ((ROWS : Int) - 1) b 0 =
      (List.replicate (b.countP rowFull) emptyRow ++ b.filter (fun row => !rowFull row),
        ((b.countP rowFull : Nat) : Int)) := by
  have hk : b.countP rowFull ≤ b.length := List.countP_le_length rowFull
  have htake : b.take ROWS = b := List.take_of_length_le (by omega)
  have hdrop : b.drop ROWS = [] := List.drop_of_length_le (by omega)
  have h := clearLinesLoop_eq clearFuel ROWS b 0 (by omega)
    (by rw [htake]; simp only [clearFuel]; omega)
  rw [htake, hdrop] at h
  simpa using h

/-- C1: on a 20x10 board `clearLines` leaves `k` empty rows on top followed by
the rows that were not full, in their order, where `k` is the number of full
rows at call time; `linesCleared` grows by `k`. -/
theorem clearLines_removes_full_rows (g : Game) (hwf : g.board.WF) :
    (clearLines g).board =
        List.replicate (g.board.countP rowFull) emptyRow
          ++ g.board.filter (fun row => !rowFull row)
      ∧ (clearLines g).linesCleared = g.linesCleared + (g.board.countP rowFull : Nat) := by
  have h := clearLinesLoop_board g.board hwf.1
  unfold clearLines
  rw [h]
  by_cases hk : ((g.board.countP rowFull : Nat) : Int) > 0
  · simp [hk]
  · have h0 : g.board.countP rowFull = 0 := by omega
    simp [h0]

theorem clearLines_removes_full_rows_witness :
    fullRowGame.board.WF ∧
      ((clearLines fullRowGame).board =
          List.replicate (fullRowGame.board.countP rowFull) emptyRow
            ++ fullRowGame.board.filter (fun row => !rowFull row)
        ∧ (clearLines fullRowGame).linesCleared
          = fullRowGame.linesCleared + (fullRowGame.board.countP rowFull : Nat)) :=
  ⟨by decide, clearLines_removes_full_rows fullRowGame (by decide)⟩

/-! ## Placement and rotation -/

theorem canPlaceCells_iff (b : Board) (p : Piece) (cells : List Offset) :
    canPlaceCells b p cells = true ↔ ∀ c ∈ cells,
      0 ≤ p.x + c.x ∧ p.x + c.x < COLS ∧ p.y + c.y < ROWS ∧
        (0 ≤ p.y + c.y → cellAt b (p.y + c.y).toNat (p.x + c.x).toNat = -1) := by
  induction cells with
  | nil => simp [canPlaceCells]
  | cons c cs ih =>
    simp only [canPlaceCells, List.mem_cons, forall_eq_or_imp]
    by_cases h1 : p.x + c.x < 0 ∨ p.x + c.x ≥ COLS
    · rw [if_pos h1]
      constructor
      · intro h; cases h
      · intro h; omega
    · rw [if_neg h1]
      by_cases h2 : p.y + c.y ≥ ROWS
      · rw [if_pos h2]
        constructor
        · intro h; cases h
        · intro h; omega
      · rw [if_neg h2]
        by_cases h3 : p.y + c.y ≥ 0 ∧ cellAt b (p.y + c.y).toNat (p.x + c.x).toNat ≠ -1
        · rw [if_pos h3]
          constructor
          · intro h; cases h
          · intro h; exact absurd (h.1.2.2.2 h3.1) h3.2
        · rw [if_neg h3, ih]
          constructor
          · intro h
            refine ⟨⟨by omega, by omega, by omega, ?_⟩, h⟩
            intro h0
            by_contra hne
            exact h3 ⟨h0, hne⟩
          · intro h; exact h.2

theorem shapeCells_length (kind rotation : Nat) (hk : kind < 7) (hr : rotation < 4) :
    (shapeCells kind rotation).length = 4 := by
  interval_cases kind <;> interval_cases rotation <;> rfl

/-- C2: for a piece of kind 0..6 and rotation 0..3, `canPlace` holds exactly
when each of its 4 absolute cells has its column in `0..COLS-1`, its row below
`ROWS`, and, when the row is not negative, an empty board cell; a cell of
negative row is never tested for occupancy. -/
theorem canPlace_iff_cells_free (b : Board) (p : Piece) (hk : p.kind < 7)
    (hr : p.rotation < 4) :
    (shapeCells p.kind p.rotation).length = 4 ∧
      (canPlace b p = true ↔ ∀ c ∈ shapeCells p.kind p.rotation,
        0 ≤ p.x + c.x ∧ p.x + c.x < COLS ∧ p.y + c.y < ROWS ∧
          (0 ≤ p.y + c.y → cellAt b (p.y + c.y).toNat (p.x + c.x).toNat = -1)) :=
  ⟨shapeCells_length p.kind p.rotation hk hr, canPlaceCells_iff b p _⟩

theorem canPlace_iff_cells_free_witness :
    spawnO.kind < 7 ∧ spawnO.rotation < 4 ∧
      (shapeCells spawnO.kind spawnO.rotation).length = 4 ∧
      (canPlace emptyBoard spawnO = true ↔ ∀ c ∈ shapeCells spawnO.kind spawnO.rotation,
        0 ≤ spawnO.x + c.x ∧ spawnO.x + c.x < COLS ∧ spawnO.y + c.y < ROWS ∧
          (0 ≤ spawnO.y + c.y →
            cellAt emptyBoard (spawnO.y + c.y).toNat (spawnO.x + c.x).toNat = -1)) :=
  ⟨by decide, by decide, canPlace_iff_cells_free emptyBoard spawnO (by decide) (by decide)⟩

theorem kickLoop_eq_find (b : Board) (rotated : Piece) (ks : List Int) :
    kickLoop b rotated ks =
      (ks.find? (fun k => canPlace b { rotated with x := rotated.x + k })).map
        (fun k => { rotated with x := rotated.x + k }) := by
  induction ks with
  | nil => rfl
  | cons k ks ih =>
    by_cases h : canPlace b { rotated with x := rotated.x + k } = true
    · simp [kickLoop, List.find?_cons, h]
    · simp [kickLoop, List.find?_cons, h, ih]

/-- C3: `rotate(dir)` turns the candidate to `(rotation+1) mod 4` for `dir > 0`
and to `(rotation+3) mod 4` otherwise and commits it shifted by the first of
the offsets `0, -1, +1, -2, +2` at which `canPlace` holds; when none does the
current piece is unchanged. The piece keeps `y` and `kind`, and the board is
not modified. -/
theorem rotate_first_placeable_kick (g : Game) (dir : Int) :
    (rotate g dir).current =
        (match ([0, -1, 1, -2, 2] : List Int).find? (fun k => canPlace g.board
            { kind := g.current.kind
              rotation := (g.current.rotation + (if dir > 0 then 1 else 3)) % 4
              x := g.current.x + k
              y := g.current.y }) with
          | some k =>
            { kind := g.current.kind
              rotation := (g.current.rotation + (if dir > 0 then 1 else 3)) % 4
              x := g.current.x + k
              y := g.current.y }
          | none => g.current)
      ∧ (rotate g dir).current.y = g.current.y
      ∧ (rotate g dir).current.kind = g.current.kind
      ∧ (rotate g dir).board = g.board := by
  unfold rotate
  simp only [kickLoop_eq_find, kicks]
  cases hf : ([0, -1, 1, -2, 2] : List Int).find? (fun k => canPlace g.board
      { g.current with
        rotation := (g.current.rotation + (if dir > 0 then 1 else 3)) % 4
        x := g.current.x + k }) with
  | none => simp [updateGhost]
  | some k => simp [updateGhost]

/-! ## The bag randomizer -/

theorem draws_length (n : Nat) (s : RandomBag7) : (s.draws n).1.length = n := by
  induction n generalizing s with
  | zero => rfl
  | succ n ih => simp [RandomBag7.draws, ih]

theorem draws_add (a b : Nat) (s : RandomBag7) :
    s.draws (a + b) = ((s.draws a).1 ++ ((s.draws a).2.draws b).1, ((s.draws a).2.draws b).2) := by
  induction a generalizing s with
  | zero => simp [RandomBag7.draws]
  | succ a ih =>
    have h : a + 1 + b = (a + b) + 1 := by omega
    rw [h]
    simp [RandomBag7.draws, ih]

/-- With the bag served from index `i`, `n` calls that stay inside the bag
return its next `n` entries. -/
theorem draws_inside (n : Nat) (s : RandomBag7) (hlen : s.bag.length = 7)
    (hn : s.bagIndex + n ≤ 7) :
    s.draws n = ((s.bag.drop s.bagIndex).take n, { s with bagIndex := s.bagIndex + n }) := by
  induction n generalizing s with
  | zero => simp [RandomBag7.draws]
  | succ n ih =>
    have hi : s.bagIndex < s.bag.length := by omega
    have hnext : s.next = (s.bag[s.bagIndex], { s with bagIndex := s.bagIndex + 1 }) := by
      have : ¬ s.bagIndex ≥ 7 := by omega
      simp [RandomBag7.next, this, List.getElem?_eq_getElem hi]
    rw [RandomBag7.draws, hnext]
    simp only
    rw [ih { s with bagIndex := s.bagIndex + 1 } hlen (by simp only; omega)]
    simp only [List.drop_eq_getElem_cons hi, List.take_succ_cons]
    simp
    omega

theorem draws_seven (s : RandomBag7) (h : BagReady s) :
    (s.draws 7).1.Perm (List.range 7) ∧ BagReady (s.draws 7).2 := by
  obtain ⟨hs, hcase⟩ := h
  -- the bag from which the seven values are served
  have key : ∀ t : RandomBag7, RandomBag7.Shuffles t.shuffle → t.bagIndex = 0 →
      t.bag.Perm (List.range 7) → (t.draws 7).1.Perm (List.range 7) ∧ BagReady (t.draws 7).2 := by
    intro t hts h0 hp
    have hlen : t.bag.length = 7 := by simpa using hp.length_eq
    rw [draws_inside 7 t hlen (by omega), h0]
    refine ⟨?_, hts, Or.inl (by simp)⟩
    simpa [List.take_of_length_le (le_of_eq hlen)] using hp
  rcases hcase with h7 | ⟨h0, hp⟩
  · have hd : s.draws 7 = s.refill.draws 7 := by
      have hn : s.next = s.refill.next := by
        simp [RandomBag7.next, h7, RandomBag7.refill]
      simp only [RandomBag7.draws, hn]
    rw [hd]
    exact key s.refill hs rfl (hs _ _)
  · exact key s hs h0 hp

theorem bagReady_new (shuffle : Nat → List Nat → List Nat)
    (h : RandomBag7.Shuffles shuffle) : BagReady (RandomBag7.new shuffle) :=
  ⟨h, Or.inr ⟨rfl, h _ _⟩⟩

theorem bagReady_draws (n : Nat) (s : RandomBag7) (h : BagReady s) :
    BagReady (s.draws (7 * n)).2 := by
  induction n with
  | zero => simpa [RandomBag7.draws] using h
  | succ n ih =>
    have : 7 * (n + 1) = 7 * n + 7 := by omega
    rw [this, draws_add]
    exact (draws_seven _ ih).2

/-- C4: with every shuffle a rearrangement of the bag, the values returned by
calls `7n+1 .. 7n+7` of `next` since construction are a permutation of
`0..6`: each of the 7 kinds once, none outside `0..6`. -/
theorem bag_window_permutation (shuffle : Nat → List Nat → List Nat)
    (h : RandomBag7.Shuffles shuffle) (n : Nat) :
    ((((RandomBag7.new shuffle).draws (7 * n + 7)).1.drop (7 * n)).Perm [0, 1, 2, 3, 4, 5, 6])
      ∧ (((RandomBag7.new shuffle).draws (7 * n + 7)).1.drop (7 * n)).Nodup
      ∧ (∀ v ∈ ((RandomBag7.new shuffle).draws (7 * n + 7)).1.drop (7 * n), v < 7)
      ∧ (∀ k < 7, (((RandomBag7.new shuffle).draws (7 * n + 7)).1.drop (7 * n)).count k = 1) := by
  have hready := bagReady_draws n _ (bagReady_new shuffle h)
  have hperm := (draws_seven _ hready).1
  have hdrop : ((RandomBag7.new shuffle).draws (7 * n + 7)).1.drop (7 * n)
      = (((RandomBag7.new shuffle).draws (7 * n)).2.draws 7).1 := by
    rw [draws_add]
    exact List.drop_left' (draws_length _ _)
  rw [hdrop]
  have hr : List.range 7 = [0, 1, 2, 3, 4, 5, 6] := by decide
  rw [hr] at hperm
  refine ⟨hperm, hperm.nodup_iff.mpr (by decide), ?_, ?_⟩
  · intro v hv
    have := hperm.mem_iff.mp hv
    simp at this
    omega
  · intro k hk
    rw [hperm.count_eq]
    interval_cases k <;> decide

theorem bag_window_permutation_witness :
    RandomBag7.Shuffles (fun _ l => l.reverse) ∧
    (((((RandomBag7.new (fun _ l => l.reverse)).draws (7 * 1 + 7)).1.drop (7 * 1)).Perm
        [0, 1, 2, 3, 4, 5, 6])
      ∧ (((RandomBag7.new (fun _ l => l.reverse)).draws (7 * 1 + 7)).1.drop (7 * 1)).Nodup
      ∧ (∀ v ∈ ((RandomBag7.new (fun _ l => l.reverse)).draws (7 * 1 + 7)).1.drop (7 * 1), v < 7)
      ∧ (∀ k < 7,
          (((RandomBag7.new (fun _ l => l.reverse)).draws (7 * 1 + 7)).1.drop (7 * 1)).count k
            = 1)) :=
  ⟨fun _ l => List.reverse_perm l,
    bag_window_permutation (fun _ l => l.reverse) (fun _ l => List.reverse_perm l) 1⟩

/-! ## Locking and scoring -/

@[simp] theorem updateGhost_board (g : Game) : (updateGhost g).board = g.board := rfl

@[simp] theorem updateGhost_score (g : Game) : (updateGhost g).score = g.score := rfl

@[simp] theorem updateGhost_linesCleared (g : Game) :
    (updateGhost g).linesCleared = g.linesCleared := rfl

@[simp] theorem updateGhost_level (g : Game) : (updateGhost g).level = g.level := rfl

@[simp] theorem updateGhost_current (g : Game) : (updateGhost g).current = g.current := rfl

@[simp] theorem spawnNewPiece_board (g : Game) : (spawnNewPiece g).board = g.board := by
  unfold spawnNewPiece
  simp only []
  split <;> rfl

@[simp] theorem spawnNewPiece_score (g : Game) : (spawnNewPiece g).score = g.score := by
  unfold spawnNewPiece
  simp only []
  split <;> rfl

@[simp] theorem spawnNewPiece_linesCleared (g : Game) :
    (spawnNewPiece g).linesCleared = g.linesCleared := by
  unfold spawnNewPiece
  simp only []
  split <;> rfl

@[simp] theorem spawnNewPiece_level (g : Game) : (spawnNewPiece g).level = g.level := by
  unfold spawnNewPiece
  simp only []
  split <;> rfl

theorem setCell_length (b : Board) (r c : Nat) (v : Int) : (setCell b r c v).length = b.length := by
  simp [setCell]

theorem markCells_length (kind : Nat) (px py : Int) (b : Board) (cells : List Offset) :
    (markCells kind px py b cells).length = b.length := by
  induction cells generalizing b with
  | nil => rfl
  | cons c cs ih =>
    simp only [markCells]
    split
    · rw [ih, setCell_length]
    · exact ih b

theorem markPiece_length (b : Board) (p : Piece) : (markPiece b p).length = b.length :=
  markCells_length _ _ _ _ _

/-- The fields written by `clearLines` on a board of `ROWS` rows, with `k` the
number of full rows. -/
theorem clearLines_fields (g : Game) (hlen : g.board.length = ROWS) :
    (clearLines g).linesCleared = g.linesCleared + (g.board.countP rowFull : Nat)
      ∧ (clearLines g).score
        = g.score + (if g.board.countP rowFull = 0 then 0
            else scoreForClears (g.board.countP rowFull : Nat) g.level) := by
  have h := clearLinesLoop_board g.board hlen
  unfold clearLines
  rw [h]
  by_cases hk : ((g.board.countP rowFull : Nat) : Int) > 0
  · have h0 : g.board.countP rowFull ≠ 0 := by omega
    simp [hk, h0]
  · have h0 : g.board.countP rowFull = 0 := by omega
    simp [h0]

/-- C5: a lock that clears `N` lines at level `L` (the level before the clear)
adds `40*(L+1)`, `100*(L+1)`, `300*(L+1)`, `1200*(L+1)` to the score for
`N = 1, 2, 3, 4` and `0` for any other `N`; a single line adds 40 at level 0
and 240 at level 5. -/
theorem lockPiece_score_table (g : Game) (hwf : g.board.WF) :
    (lockPiece g).linesCleared
        = g.linesCleared + ((markPiece g.board g.current).countP rowFull : Nat)
      ∧ (lockPiece g).score
        = g.score +
          (if (markPiece g.board g.current).countP rowFull = 1 then 40 * (g.level + 1)
           else if (markPiece g.board g.current).countP rowFull = 2 then 100 * (g.level + 1)
           else if (markPiece g.board g.current).countP rowFull = 3 then 300 * (g.level + 1)
           else if (markPiece g.board g.current).countP rowFull = 4 then 1200 * (g.level + 1)
           else 0)
      ∧ ((markPiece g.board g.current).countP rowFull = 1 → g.level = 0 →
          (lockPiece g).score = g.score + 40)
      ∧ ((markPiece g.board g.current).countP rowFull = 1 → g.level = 5 →
          (lockPiece g).score = g.score + 240) := by
  have hlen : (markPiece g.board g.current).length = ROWS := by
    rw [markPiece_length]; exact hwf.1
  have h := clearLines_fields { g with board := markPiece g.board g.current } hlen
  simp only [] at h
  have hs : (lockPiece g).score
      = g.score +
          (if (markPiece g.board g.current).countP rowFull = 1 then 40 * (g.level + 1)
           else if (markPiece g.board g.current).countP rowFull = 2 then 100 * (g.level + 1)
           else if (markPiece g.board g.current).countP rowFull = 3 then 300 * (g.level + 1)
           else if (markPiece g.board g.current).countP rowFull = 4 then 1200 * (g.level + 1)
           else 0) := by
    unfold lockPiece
    rw [spawnNewPiece_score, h.2]
    generalize (markPiece g.board g.current).countP rowFull = k
    by_cases h0 : k = 0
    · simp [h0]
    · simp only [if_neg h0, scoreForClears]
      norm_cast
  refine ⟨?_, hs, ?_, ?_⟩
  · unfold lockPiece
    rw [spawnNewPiece_linesCleared, h.1]
  · intro h1 hl
    rw [hs, if_pos h1, hl]; rfl
  · intro h1 hl
    rw [hs, if_pos h1, hl]; rfl

theorem lockPiece_score_table_witness :
    lineGame.board.WF ∧
      ((markPiece lineGame.board lineGame.current).countP rowFull = 1
        ∧ lineGame.level = 5 ∧ (lockPiece lineGame).score = lineGame.score + 240) :=
  ⟨by decide, by decide, by decide,
    (lockPiece_score_table lineGame (by decide)).2.2.2 (by decide) (by decide)⟩

/-! ## Score monotonicity -/

theorem scoreForClears_nonneg (count lvl : Int) (h : 0 ≤ lvl) : 0 ≤ scoreForClears count lvl := by
  unfold scoreForClears
  split_ifs <;> omega

theorem clearLinesLoop_cleared_le (fuel : Nat) (r : Int) (b : Board) (c : Int) :
    c ≤ (clearLinesLoop fuel r b c).2 := by
  induction fuel generalizing r b c with
  | zero => simp [clearLinesLoop]
  | succ fuel ih =>
    rw [clearLinesLoop]
    split_ifs
    · exact le_refl c
    · exact le_trans (by omega) (ih r (collapseRow b r.toNat) (c + 1))
    · exact ih (r - 1) b c

theorem hardDropLoop_dist_le (b : Board) (fuel : Nat) (p : Piece) (d : Int) :
    d ≤ (hardDropLoop b fuel p d).2 := by
  induction fuel generalizing p d with
  | zero => simp [hardDropLoop]
  | succ fuel ih =>
    rw [hardDropLoop]
    split_ifs
    · exact le_trans (by omega) (ih _ (d + 1))
    · exact le_refl d

theorem clearLines_score_le (g : Game) (h : CountersOk g) : g.score ≤ (clearLines g).score := by
  unfold clearLines
  simp only []
  split_ifs
  · have := scoreForClears_nonneg (clearLinesLoop clearFuel ((ROWS : Int) - 1) g.board 0).2
      g.level h.1
    simp only []
    omega
  · exact le_refl _

theorem clearLines_countersOk (g : Game) (h : CountersOk g) : CountersOk (clearLines g) := by
  unfold clearLines
  simp only []
  split_ifs with hpos
  · refine ⟨?_, ?_⟩
    · simp only []
      have h1 : 0 ≤ g.linesCleared + (clearLinesLoop clearFuel ((ROWS : Int) - 1) g.board 0).2 := by
        have := h.2; omega
      exact le_min (by norm_num) (Int.tdiv_nonneg h1 (by norm_num))
    · simp only []
      have := h.2; omega
  · exact h

theorem lockPiece_score_le (g : Game) (h : CountersOk g) : g.score ≤ (lockPiece g).score := by
  unfold lockPiece
  rw [spawnNewPiece_score]
  exact clearLines_score_le { g with board := markPiece g.board g.current } h

theorem spawnNewPiece_countersOk (g : Game) (h : CountersOk g) : CountersOk (spawnNewPiece g) := by
  unfold CountersOk
  rw [spawnNewPiece_level, spawnNewPiece_linesCleared]
  exact h

theorem lockPiece_countersOk (g : Game) (h : CountersOk g) : CountersOk (lockPiece g) := by
  unfold lockPiece
  exact spawnNewPiece_countersOk _
    (clearLines_countersOk { g with board := markPiece g.board g.current } h)

theorem run_score_le (op : Op) (g : Game) (h : CountersOk g) : g.score ≤ (op.run g).score := by
  cases op with
  | moveHorizontal dx =>
    simp only [Op.run, moveHorizontal, updateGhost_score]
    split_ifs <;> exact le_refl _
  | rotate dir =>
    simp only [Op.run, rotate, updateGhost_score]
    split <;> exact le_refl _
  | softDropStep =>
    simp only [Op.run, softDropStep, updateGhost_score]
    split_ifs
    · simp only []; omega
    · exact lockPiece_score_le g h
  | gravityStep =>
    simp only [Op.run, gravityStep, updateGhost_score]
    split_ifs
    · exact le_refl _
    · exact lockPiece_score_le g h
  | hardDrop =>
    simp only [Op.run, hardDrop, updateGhost_score]
    have hd := hardDropLoop_dist_le g.board (dropFuel g.current) g.current 0
    refine le_trans ?_ (lockPiece_score_le _ h)
    simp only []
    omega
  | lockPiece => exact lockPiece_score_le g h
  | clearLines => exact clearLines_score_le g h
  | spawnNewPiece => simp only [Op.run, spawnNewPiece_score]; exact le_refl _

theorem run_countersOk (op : Op) (g : Game) (h : CountersOk g) : CountersOk (op.run g) := by
  cases op with
  | moveHorizontal dx =>
    simp only [Op.run, moveHorizontal, CountersOk, updateGhost_level, updateGhost_linesCleared]
    split_ifs <;> exact h
  | rotate dir =>
    simp only [Op.run, rotate, CountersOk, updateGhost_level, updateGhost_linesCleared]
    split <;> exact h
  | softDropStep =>
    simp only [Op.run, softDropStep, CountersOk, updateGhost_level, updateGhost_linesCleared]
    split_ifs
    · exact h
    · exact lockPiece_countersOk g h
  | gravityStep =>
    simp only [Op.run, gravityStep, CountersOk, updateGhost_level, updateGhost_linesCleared]
    split_ifs
    · exact h
    · exact lockPiece_countersOk g h
  | hardDrop =>
    simp only [Op.run, hardDrop, CountersOk, updateGhost_level, updateGhost_linesCleared]
    exact lockPiece_countersOk _ h
  | lockPiece => exact lockPiece_countersOk g h
  | clearLines => exact clearLines_countersOk g h
  | spawnNewPiece => exact spawnNewPiece_countersOk g h

theorem reachable_countersOk (g : Game) (h : Reachable g) : CountersOk g := by
  induction h with
  | init shuffle hs =>
    unfold newGame
    apply spawnNewPiece_countersOk
    exact ⟨le_refl _, le_refl _⟩
  | step g op _ ih => exact run_countersOk op g ih

/-- C6: in every reachable state each of the operations `moveHorizontal`,
`rotate`, `softDropStep`, `gravityStep`, `hardDrop`, `lockPiece`, `clearLines`
and `spawnNewPiece` leaves the score at least as high as it was. -/
theorem score_never_decreases (g : Game) (h : Reachable g) (op : Op) :
    g.score ≤ (op.run g).score :=
  run_score_le op g (reachable_countersOk g h)

theorem score_never_decreases_witness :
    Reachable (newGame (fun _ l => l)) ∧
      (newGame (fun _ l => l)).score ≤ (Op.hardDrop.run (newGame (fun _ l => l))).score :=
  ⟨Reachable.init _ (fun _ l => List.Perm.refl l),
    score_never_decreases _ (Reachable.init _ (fun _ l => List.Perm.refl l)) Op.hardDrop⟩

/-! ## The descent loops -/

theorem shapeCells_y_bounds (kind rotation : Nat) (hk : kind < 7) (hr : rotation < 4) :
    ∃ c ∈ shapeCells kind rotation, 0 ≤ c.y := by
  interval_cases kind <;> interval_cases rotation <;> decide

/-- A placeable piece of a valid kind and rotation has its anchor above row
`ROWS`. -/
theorem canPlace_y_lt (b : Board) (p : Piece) (hk : p.kind < 7) (hr : p.rotation < 4)
    (h : canPlace b p = true) : p.y < ROWS := by
  obtain ⟨c, hc, hy⟩ := shapeCells_y_bounds p.kind p.rotation hk hr
  have := ((canPlaceCells_iff b p _).mp h c hc).2.2.1
  omega

theorem dropFuel_down (p : Piece) (n : Nat) (hy : p.down.y < ROWS) (hf : dropFuel p ≤ n + 1) :
    dropFuel p.down ≤ n := by
  simp only [dropFuel, Piece.down] at *
  omega

/-- One more step than the budget `dropFuel` changes nothing in the loop of
`hardDrop`. -/
theorem hardDropLoop_succ_fuel (b : Board) (fuel : Nat) (p : Piece) (d : Int)
    (hk : p.kind < 7) (hr : p.rotation < 4) (hf : dropFuel p ≤ fuel) :
    hardDropLoop b (fuel + 1) p d = hardDropLoop b fuel p d := by
  induction fuel generalizing p d with
  | zero => simp [dropFuel] at hf
  | succ n ih =>
    conv_lhs => rw [hardDropLoop]
    conv_rhs => rw [hardDropLoop]
    by_cases hc : canPlace b p.down = true
    · have hy := canPlace_y_lt b p.down hk hr hc
      simp only [hc, if_true]
      exact ih p.down (d + 1) hk hr (dropFuel_down p n hy hf)
    · simp [hc]

/-- The budget `dropFuel` is not used up: any larger budget gives the same
landing and distance. -/
theorem hardDropLoop_fuel (b : Board) (fuel : Nat) (p : Piece) (d : Int)
    (hk : p.kind < 7) (hr : p.rotation < 4) (hf : dropFuel p ≤ fuel) :
    hardDropLoop b fuel p d = hardDropLoop b (dropFuel p) p d := by
  induction fuel with
  | zero => simp [dropFuel] at hf
  | succ n ih =>
    by_cases h : dropFuel p ≤ n
    · rw [hardDropLoop_succ_fuel b n p d hk hr h, ih h]
    · have : dropFuel p = n + 1 := by omega
      rw [this]

/-- The loop of `hardDrop` ends on a piece that is not placeable one row lower. -/
theorem hardDropLoop_lands (b : Board) (fuel : Nat) (p : Piece) (d : Int)
    (hk : p.kind < 7) (hr : p.rotation < 4) (hf : dropFuel p ≤ fuel) :
    canPlace b (hardDropLoop b fuel p d).1.down = false := by
  induction fuel generalizing p d with
  | zero => simp [dropFuel] at hf
  | succ n ih =>
    rw [hardDropLoop]
    by_cases hc : canPlace b p.down = true
    · have hy := canPlace_y_lt b p.down hk hr hc
      simp only [hc, if_true]
      exact ih p.down (d + 1) hk hr (dropFuel_down p n hy hf)
    · rw [if_neg hc]
      simpa using hc

/-- The loops of `updateGhost` and `hardDrop` descend alike. -/
theorem ghostLoop_eq_hardDropLoop (b : Board) (fuel : Nat) (p : Piece) (d : Int) :
    ghostLoop b fuel p = (hardDropLoop b fuel p d).1 := by
  induction fuel generalizing p d with
  | zero => rfl
  | succ n ih =>
    rw [ghostLoop, hardDropLoop]
    by_cases hc : canPlace b p.down = true
    · simp only [hc, if_true]
      exact ih _ _
    · simp [hc]

/-! ## Hard drop of the O piece -/

/-- The board, score and line count after `hardDrop`, in terms of the landing
found by its loop. -/
theorem hardDrop_fields (g : Game) (hlen : g.board.length = ROWS) :
    (hardDrop g).board
        = (clearLinesLoop clearFuel ((ROWS : Int) - 1)
            (markPiece g.board (hardDropLoop g.board (dropFuel g.current) g.current 0).1) 0).1
      ∧ (hardDrop g).linesCleared = g.linesCleared
          + ((markPiece g.board
              (hardDropLoop g.board (dropFuel g.current) g.current 0).1).countP rowFull : Nat)
      ∧ (hardDrop g).score
          = g.score + (hardDropLoop g.board (dropFuel g.current) g.current 0).2 * 2
            + (if (markPiece g.board
                (hardDropLoop g.board (dropFuel g.current) g.current 0).1).countP rowFull = 0
              then 0
              else scoreForClears ((markPiece g.board
                (hardDropLoop g.board (dropFuel g.current) g.current 0).1).countP rowFull : Nat)
                g.level) := by
  have hl : (markPiece g.board
      (hardDropLoop g.board (dropFuel g.current) g.current 0).1).length = ROWS := by
    rw [markPiece_length]; exact hlen
  have h := clearLines_fields
    { g with
      current := (hardDropLoop g.board (dropFuel g.current) g.current 0).1
      score := g.score + (hardDropLoop g.board (dropFuel g.current) g.current 0).2 * 2
      board := markPiece g.board (hardDropLoop g.board (dropFuel g.current) g.current 0).1 } hl
  simp only [] at h
  refine ⟨?_, ?_, ?_⟩
  · simp only [hardDrop, lockPiece, updateGhost_board, spawnNewPiece_board]
    unfold clearLines
    simp only []
    split_ifs <;> rfl
  · simp only [hardDrop, lockPiece, updateGhost_linesCleared, spawnNewPiece_linesCleared]
    exact h.1
  · simp only [hardDrop, lockPiece, updateGhost_score, spawnNewPiece_score]
    exact h.2

theorem hardDropLoop_spawnO :
    hardDropLoop emptyBoard (dropFuel spawnO) spawnO 0 = (⟨1, 0, 3, 17⟩, 18) := by decide

/-- C7 (as stated, refuted): on the empty board the O piece hard-dropped from
the spawn position does not land with its anchor at `y = ROWS - 2 = 18`. -/
theorem hardDrop_O_anchor_not_18 :
    ¬ ((hardDropLoop spawnOGame.board (dropFuel spawnOGame.current) spawnOGame.current 0).1.y
      = (ROWS : Int) - 2) := by decide

/-- C7 (amended): on the empty board the O piece (kind 1, rotation 0) at the
spawn position `x = COLS/2 - 2 = 3`, `y = -1` is hard-dropped to the anchor
`y = ROWS - 3 = 17`, 18 rows down: it is placeable there and not one row
lower, and the drop adds 36 to the score. -/
theorem hardDrop_O_lands_at_17 (g : Game) (hb : g.board = emptyBoard)
    (hc : g.current = spawnO) :
    g.current = ⟨1, 0, ((COLS / 2 : Nat) : Int) - 2, -1⟩
      ∧ hardDropLoop g.board (dropFuel g.current) g.current 0
          = (⟨1, 0, 3, (ROWS : Int) - 3⟩, 18)
      ∧ (ROWS : Int) - 3 = 17
      ∧ canPlace g.board ⟨1, 0, 3, 17⟩ = true
      ∧ canPlace g.board ⟨1, 0, 3, 18⟩ = false
      ∧ (hardDrop g).score = g.score + 36 := by
  have hs := (hardDrop_fields g (by rw [hb]; decide)).2.2
  rw [hb, hc] at hs ⊢
  rw [hardDropLoop_spawnO] at hs
  refine ⟨by decide, by decide, by decide, by decide, by decide, ?_⟩
  rw [hs]
  have h0 : (markPiece emptyBoard (⟨1, 0, 3, 17⟩, (18 : Int)).1).countP rowFull = 0 := by decide
  rw [if_pos h0]
  norm_num

theorem hardDrop_O_lands_at_17_witness :
    spawnOGame.board = emptyBoard ∧ spawnOGame.current = spawnO
      ∧ hardDropLoop spawnOGame.board (dropFuel spawnOGame.current) spawnOGame.current 0
          = (⟨1, 0, 3, (ROWS : Int) - 3⟩, 18) :=
  ⟨rfl, rfl, (hardDrop_O_lands_at_17 spawnOGame rfl rfl).2.1⟩

/-- C8: on the empty board, hard-dropping the O piece (kind 1, rotation 0)
from `x = 3`, `y = -1` leaves a board whose only occupied cells are those of
rows `ROWS-2`, `ROWS-1` and columns 4, 5, each holding 1; no line is cleared. -/
theorem hardDrop_O_board (g : Game) (hb : g.board = emptyBoard) (hc : g.current = spawnO) :
    (hardDrop g).board = List.replicate 18 emptyRow ++ [rowWithO, rowWithO]
      ∧ (∀ r < ROWS, ∀ c < COLS, cellAt (hardDrop g).board r c
          = if (r = ROWS - 2 ∨ r = ROWS - 1) ∧ (c = 4 ∨ c = 5) then 1 else -1)
      ∧ (hardDrop g).linesCleared = g.linesCleared := by
  have h := hardDrop_fields g (by rw [hb]; decide)
  rw [hb, hc, hardDropLoop_spawnO] at h
  have hboard : (hardDrop g).board = List.replicate 18 emptyRow ++ [rowWithO, rowWithO] := by
    rw [h.1]; decide
  refine ⟨hboard, ?_, ?_⟩
  · rw [hboard]; decide
  · rw [h.2.1]
    have h0 : (markPiece emptyBoard (⟨1, 0, 3, 17⟩, (18 : Int)).1).countP rowFull = 0 := by decide
    rw [h0]; simp

theorem hardDrop_O_board_witness :
    spawnOGame.board = emptyBoard ∧ spawnOGame.current = spawnO
      ∧ (hardDrop spawnOGame).board = List.replicate 18 emptyRow ++ [rowWithO, rowWithO] :=
  ⟨rfl, rfl, (hardDrop_O_board spawnOGame rfl rfl).1⟩

/-! ## The marking loop of lockPiece -/

theorem setCell_WF (b : Board) (hwf : b.WF) (r c : Nat) (v : Int) : (setCell b r c v).WF := by
  by_cases hr : r < b.length
  · refine ⟨by rw [setCell_length]; exact hwf.1, ?_⟩
    intro row hrow
    unfold setCell at hrow
    rcases List.mem_or_eq_of_mem_set hrow with h | h
    · exact hwf.2 row h
    · rw [h, List.length_set]
      have : b.getD r [] = b[r] := by simp [List.getElem?_eq_getElem hr]
      rw [this]
      exact hwf.2 _ (List.getElem_mem _)
  · have : setCell b r c v = b := List.set_eq_of_length_le (by omega)
    rw [this]; exact hwf

theorem cellAt_setCell (b : Board) (hwf : b.WF) (r0 c0 : Nat) (hr : r0 < ROWS) (hc : c0 < COLS)
    (v : Int) (r c : Nat) :
    cellAt (setCell b r0 c0 v) r c = if r = r0 ∧ c = c0 then v else cellAt b r c := by
  have hr' : r0 < b.length := by rw [hwf.1]; exact hr
  have hrow : b[r0].length = COLS := hwf.2 _ (List.getElem_mem _)
  unfold cellAt setCell
  by_cases h1 : r = r0
  · subst h1
    by_cases h2 : c = c0
    · subst h2
      simp [List.getElem?_set, hr', hrow, hc]
    · have h3 : ¬ c0 = c := fun h => h2 h.symm
      simp [List.getElem?_set, hr', h2, h3]
  · have h3 : ¬ r0 = r := fun h => h1 h.symm
    simp [List.getElem?_set, h1, h3]

theorem markCells_WF (kind : Nat) (px py : Int) (b : Board) (hwf : b.WF) (cells : List Offset) :
    (markCells kind px py b cells).WF := by
  induction cells generalizing b with
  | nil => exact hwf
  | cons o os ih =>
    simp only [markCells]
    split
    · exact ih _ (setCell_WF b hwf _ _ _)
    · exact ih b hwf

/-- The cells of a 20x10 board after the marking loop of `lockPiece`: the cells
in the grid covered by the piece hold its kind, all others are unchanged. -/
theorem cellAt_markCells (kind : Nat) (px py : Int) (b : Board) (hwf : b.WF)
    (cells : List Offset) (r c : Nat) :
    cellAt (markCells kind px py b cells) r c =
      if r < ROWS ∧ c < COLS ∧ ∃ o ∈ cells, py + o.y = r ∧ px + o.x = c then (kind : Int)
      else cellAt b r c := by
  induction cells generalizing b with
  | nil => simp [markCells]
  | cons o os ih =>
    simp only [markCells]
    by_cases hin : py + o.y ≥ 0 ∧ py + o.y < ROWS ∧ px + o.x ≥ 0 ∧ px + o.x < COLS
    · rw [if_pos hin, ih _ (setCell_WF b hwf _ _ _),
        cellAt_setCell b hwf _ _ (by omega) (by omega)]
      by_cases hhere : r = (py + o.y).toNat ∧ c = (px + o.x).toNat
      · have h1 : r < ROWS ∧ c < COLS ∧ ∃ o' ∈ o :: os, py + o'.y = r ∧ px + o'.x = c :=
          ⟨by omega, by omega, o, List.mem_cons_self _ _, by omega, by omega⟩
        rw [if_pos h1, if_pos hhere]
        split <;> rfl
      · rw [if_neg hhere]
        by_cases hos : r < ROWS ∧ c < COLS ∧ ∃ o' ∈ os, py + o'.y = r ∧ px + o'.x = c
        · have h1 : r < ROWS ∧ c < COLS ∧ ∃ o' ∈ o :: os, py + o'.y = r ∧ px + o'.x = c := by
            obtain ⟨h1, h2, o', ho', h3⟩ := hos
            exact ⟨h1, h2, o', List.mem_cons_of_mem _ ho', h3⟩
          rw [if_pos hos, if_pos h1]
        · have h1 : ¬ (r < ROWS ∧ c < COLS ∧ ∃ o' ∈ o :: os, py + o'.y = r ∧ px + o'.x = c) := by
            rintro ⟨h1, h2, o', ho', h3⟩
            rcases List.mem_cons.mp ho' with rfl | ho'
            · exact hhere ⟨by omega, by omega⟩
            · exact hos ⟨h1, h2, o', ho', h3⟩
          rw [if_neg hos, if_neg h1]
    · rw [if_neg hin, ih b hwf]
      by_cases hos : r < ROWS ∧ c < COLS ∧ ∃ o' ∈ os, py + o'.y = r ∧ px + o'.x = c
      · have h1 : r < ROWS ∧ c < COLS ∧ ∃ o' ∈ o :: os, py + o'.y = r ∧ px + o'.x = c := by
          obtain ⟨h1, h2, o', ho', h3⟩ := hos
          exact ⟨h1, h2, o', List.mem_cons_of_mem _ ho', h3⟩
        rw [if_pos hos, if_pos h1]
      · have h1 : ¬ (r < ROWS ∧ c < COLS ∧ ∃ o' ∈ o :: os, py + o'.y = r ∧ px + o'.x = c) := by
          rintro ⟨h1, h2, o', ho', h3⟩
          rcases List.mem_cons.mp ho' with rfl | ho'
          · exact hin ⟨by omega, by omega, by omega, by omega⟩
          · exact hos ⟨h1, h2, o', ho', h3⟩
        rw [if_neg hos, if_neg h1]

/-! ## Filling a one-cell hole -/

theorem rowFull_getD_iff (b : Board) (r : Nat) :
    rowFull (b.getD r []) = true ↔ ∀ c < COLS, cellAt b r c ≠ -1 := by
  simp [rowFull, cellAt, List.all_eq_true]

/-- A list in which exactly the entry at index `R` satisfies `P`. -/
theorem countP_filter_single {α : Type} (P : α → Bool) (l : List α) (R : Nat)
    (hR : R < l.length) (hP : P l[R] = true)
    (hn : ∀ i (hi : i < l.length), i ≠ R → P l[i] = false) :
    l.countP P = 1 ∧ l.filter (fun a => !P a) = l.take R ++ l.drop (R + 1) := by
  have hsplit : l = l.take R ++ l[R] :: l.drop (R + 1) := by
    rw [← List.drop_eq_getElem_cons hR, List.take_append_drop]
  have htake : ∀ a ∈ l.take R, P a = false := by
    intro a ha
    obtain ⟨i, hi, rfl⟩ := List.getElem_of_mem ha
    rw [List.getElem_take]
    have hi' : i < R := by
      rw [List.length_take] at hi; omega
    exact hn i (by omega) (by omega)
  have hdrop : ∀ a ∈ l.drop (R + 1), P a = false := by
    intro a ha
    obtain ⟨i, hi, rfl⟩ := List.getElem_of_mem ha
    rw [List.getElem_drop]
    rw [List.length_drop] at hi
    exact hn (R + 1 + i) (by omega) (by omega)
  constructor
  · conv_lhs => rw [hsplit]
    rw [List.countP_append, List.countP_cons, if_pos hP,
      List.countP_eq_zero.mpr (by intro a ha; simp [htake a ha]),
      List.countP_eq_zero.mpr (by intro a ha; simp [hdrop a ha])]
  · conv_lhs => rw [hsplit]
    rw [List.filter_append, List.filter_cons]
    simp only [hP, Bool.not_true]
    rw [List.filter_eq_self.mpr (by intro a ha; simp [htake a ha]),
      List.filter_eq_self.mpr (by intro a ha; simp [hdrop a ha])]
    simp

theorem clearLines_board (g : Game) :
    (clearLines g).board = (clearLinesLoop clearFuel ((ROWS : Int) - 1) g.board 0).1 := by
  unfold clearLines
  simp only []
  split_ifs <;> rfl

theorem lockPiece_board (g : Game) :
    (lockPiece g).board
      = (clearLinesLoop clearFuel ((ROWS : Int) - 1) (markPiece g.board g.current) 0).1 := by
  unfold lockPiece
  rw [spawnNewPiece_board, clearLines_board]

/-- The line count after `lockPiece` on a board of `ROWS` rows. -/
theorem lockPiece_linesCleared (g : Game) (hlen : g.board.length = ROWS) :
    (lockPiece g).linesCleared
      = g.linesCleared + ((markPiece g.board g.current).countP rowFull : Nat) := by
  have hl : (markPiece g.board g.current).length = ROWS := by
    rw [markPiece_length]; exact hlen
  have h := clearLines_fields { g with board := markPiece g.board g.current } hl
  simp only [] at h
  unfold lockPiece
  rw [spawnNewPiece_linesCleared, h.1]

/-- On a row occupied everywhere except in column 3 no horizontal I piece
covering column 3 of that row is placeable. -/
theorem horizontal_I_blocked (b : Board) (R : Nat)
    (hrow : ∀ c < COLS, c ≠ 3 → cellAt b R c ≠ -1) (x y : Int)
    (hcover : ∃ o ∈ shapeCells 0 0, x + o.x = 3 ∧ y + o.y = R) :
    canPlace b ⟨0, 0, x, y⟩ = false := by
  by_contra hne
  have hcp : canPlace b ⟨0, 0, x, y⟩ = true := by simpa using hne
  have hall := (canPlaceCells_iff b ⟨0, 0, x, y⟩ _).mp hcp
  have hcells : shapeCells 0 0 = [⟨0, 1⟩, ⟨1, 1⟩, ⟨2, 1⟩, ⟨3, 1⟩] := rfl
  simp only [hcells] at hall hcover
  have hy : y = (R : Int) - 1 := by
    obtain ⟨o, ho, _, h2⟩ := hcover
    simp only [List.mem_cons, List.mem_singleton, List.not_mem_nil, or_false] at ho
    rcases ho with rfl | rfl | rfl | rfl <;> simp only [] at h2 <;> omega
  have hx : 0 ≤ x ∧ x ≤ 3 := by
    obtain ⟨o, ho, h1, _⟩ := hcover
    simp only [List.mem_cons, List.mem_singleton, List.not_mem_nil, or_false] at ho
    rcases ho with rfl | rfl | rfl | rfl <;> simp only [] at h1 <;> omega
  by_cases h3 : x = 3
  · have h := (hall ⟨1, 1⟩ (by simp)).2.2.2
    simp only [] at h
    have hrw : (y + 1).toNat = R := by omega
    have hcw : (x + 1).toNat = 4 := by omega
    rw [hrw, hcw] at h
    exact hrow 4 (by decide) (by decide) (h (by omega))
  · have h := (hall ⟨0, 1⟩ (by simp)).2.2.2
    simp only [] at h
    have hrw : (y + 1).toNat = R := by omega
    rw [hrw] at h
    have hlt : (x + 0).toNat < COLS := by simp only [COLS]; omega
    exact hrow (x + 0).toNat hlt (by omega) (h (by omega))

/-- C9 (as stated, refuted): the bottom row of `holeBoard` is occupied except
in column 3, and no I piece in rotation 0 covering column 3 of that row is
placeable. -/
theorem horizontal_I_cannot_fill_hole :
    (∀ c < COLS, (cellAt holeBoard 19 c = -1 ↔ c = 3))
      ∧ ¬ ∃ x y : Int, canPlace holeBoard ⟨0, 0, x, y⟩ = true
          ∧ ∃ o ∈ shapeCells 0 0, x + o.x = 3 ∧ y + o.y = (19 : Nat) := by
  have hrow : ∀ c < COLS, (cellAt holeBoard 19 c = -1 ↔ c = 3) := by decide
  refine ⟨hrow, ?_⟩
  rintro ⟨x, y, hcp, hcover⟩
  have := horizontal_I_blocked holeBoard 19
    (fun c hc h3 h => h3 ((hrow c hc).mp h)) x y hcover
  rw [this] at hcp
  cases hcp

theorem cellAt_markPiece_vertical_I (b : Board) (hwf : b.WF) (R : Nat) (hR : R < ROWS)
    (r c : Nat) :
    cellAt (markPiece b ⟨0, 1, 1, (R : Int) - 3⟩) r c
      = if c = 3 ∧ r ≤ R ∧ R ≤ r + 3 then 0 else cellAt b r c := by
  unfold markPiece
  rw [cellAt_markCells _ _ _ b hwf]
  have hcells : shapeCells 0 1 = [⟨2, 0⟩, ⟨2, 1⟩, ⟨2, 2⟩, ⟨2, 3⟩] := rfl
  simp only [hcells]
  by_cases h : c = 3 ∧ r ≤ R ∧ R ≤ r + 3
  · have h' : r < ROWS ∧ c < COLS ∧ ∃ o ∈ ([⟨2, 0⟩, ⟨2, 1⟩, ⟨2, 2⟩, ⟨2, 3⟩] : List Offset),
        (R : Int) - 3 + o.y = r ∧ (1 : Int) + o.x = c := by
      refine ⟨by omega, by simp only [COLS]; omega, ?_⟩
      obtain ⟨h1, h2, h3⟩ := h
      have hcase : r + 3 = R ∨ r + 2 = R ∨ r + 1 = R ∨ r = R := by omega
      rcases hcase with h4 | h4 | h4 | h4
      · exact ⟨⟨2, 0⟩, by simp, by simp only []; omega, by simp only []; omega⟩
      · exact ⟨⟨2, 1⟩, by simp, by simp only []; omega, by simp only []; omega⟩
      · exact ⟨⟨2, 2⟩, by simp, by simp only []; omega, by simp only []; omega⟩
      · exact ⟨⟨2, 3⟩, by simp, by simp only []; omega, by simp only []; omega⟩
    rw [if_pos h', if_pos h]; rfl
  · have h' : ¬ (r < ROWS ∧ c < COLS ∧ ∃ o ∈ ([⟨2, 0⟩, ⟨2, 1⟩, ⟨2, 2⟩, ⟨2, 3⟩] : List Offset),
        (R : Int) - 3 + o.y = r ∧ (1 : Int) + o.x = c) := by
      rintro ⟨_, _, o, ho, h1, h2⟩
      apply h
      simp only [List.mem_cons, List.mem_singleton, List.not_mem_nil, or_false] at ho
      rcases ho with rfl | rfl | rfl | rfl <;> simp only [] at h1 h2 <;>
        exact ⟨by omega, by omega, by omega⟩
    rw [if_neg h', if_neg h]

/-- C9 (amended): let row `R` of a 20x10 board be occupied in every column
except column 3, column 3 be empty in the three rows above `R`, and every
other row have an empty cell outside column 3. No I piece in rotation 0
covering column 3 of row `R` is placeable. The I piece in rotation 1
(vertical) at `x = 1`, `y = R - 3` is placeable and fills column 3 of row
`R`; locking it there clears exactly 1 line: the top row becomes empty, every
row above `R` moves down by one, and the rows below `R` stay. -/
theorem vertical_I_fills_hole (g : Game) (R : Nat) (hwf : g.board.WF) (hR : R < ROWS)
    (hrow : ∀ c < COLS, (cellAt g.board R c = -1 ↔ c = 3))
    (hcol : ∀ r < R, R ≤ r + 3 → cellAt g.board r 3 = -1)
    (hother : ∀ r < ROWS, r ≠ R → ∃ c < COLS, c ≠ 3 ∧ cellAt g.board r c = -1)
    (hcur : g.current = ⟨0, 1, 1, (R : Int) - 3⟩) :
    (∀ x y : Int, (∃ o ∈ shapeCells 0 0, x + o.x = 3 ∧ y + o.y = R) →
        canPlace g.board ⟨0, 0, x, y⟩ = false)
      ∧ canPlace g.board g.current = true
      ∧ (∃ o ∈ shapeCells g.current.kind g.current.rotation,
          g.current.x + o.x = 3 ∧ g.current.y + o.y = R)
      ∧ (∀ r c, cellAt (markPiece g.board g.current) r c
          = if c = 3 ∧ r ≤ R ∧ R ≤ r + 3 then 0 else cellAt g.board r c)
      ∧ (lockPiece g).linesCleared = g.linesCleared + 1
      ∧ (lockPiece g).board.getD 0 [] = emptyRow
      ∧ (∀ r < R, (lockPiece g).board.getD (r + 1) [] = (markPiece g.board g.current).getD r [])
      ∧ (∀ r, R < r → (lockPiece g).board.getD r [] = (markPiece g.board g.current).getD r []) := by
  have hcell := cellAt_markPiece_vertical_I g.board hwf R hR
  rw [← hcur] at hcell
  have hmwf : (markPiece g.board g.current).WF := markCells_WF _ _ _ _ hwf _
  have hmlen : (markPiece g.board g.current).length = ROWS := hmwf.1
  -- the placement of the vertical piece
  have hplace : canPlace g.board g.current = true := by
    rw [hcur]
    apply (canPlaceCells_iff _ _ _).mpr
    have hcells : shapeCells 0 1 = [⟨2, 0⟩, ⟨2, 1⟩, ⟨2, 2⟩, ⟨2, 3⟩] := rfl
    simp only [hcells]
    intro o ho
    simp only [List.mem_cons, List.mem_singleton, List.not_mem_nil, or_false] at ho
    have h3 : cellAt g.board R 3 = -1 := (hrow 3 (by decide)).mpr rfl
    rcases ho with rfl | rfl | rfl | rfl
    · refine ⟨by norm_num, by decide, by simp only []; omega, ?_⟩
      intro h0
      have e1 : ((R : Int) - 3 + 0).toNat = R - 3 := by omega
      simp only [] at h0 ⊢
      rw [e1]
      exact hcol (R - 3) (by omega) (by omega)
    · refine ⟨by norm_num, by decide, by simp only []; omega, ?_⟩
      intro h0
      have e1 : ((R : Int) - 3 + 1).toNat = R - 2 := by omega
      simp only [] at h0 ⊢
      rw [e1]
      exact hcol (R - 2) (by omega) (by omega)
    · refine ⟨by norm_num, by decide, by simp only []; omega, ?_⟩
      intro h0
      have e1 : ((R : Int) - 3 + 2).toNat = R - 1 := by omega
      simp only [] at h0 ⊢
      rw [e1]
      exact hcol (R - 1) (by omega) (by omega)
    · refine ⟨by norm_num, by decide, by simp only []; omega, ?_⟩
      intro _
      have e1 : ((R : Int) - 3 + 3).toNat = R := by omega
      simp only []
      rw [e1]
      exact h3
  -- the rows of the marked board
  have hRlt : R < (markPiece g.board g.current).length := by omega
  have hgetD : ∀ i (hi : i < (markPiece g.board g.current).length),
      (markPiece g.board g.current).getD i [] = (markPiece g.board g.current)[i] := by
    intro i hi
    simp [List.getElem?_eq_getElem hi]
  have hfullR : rowFull (markPiece g.board g.current)[R] = true := by
    rw [← hgetD R hRlt, rowFull_getD_iff]
    intro c hc
    rw [hcell]
    by_cases h3 : c = 3
    · rw [if_pos ⟨h3, le_refl R, by omega⟩]; decide
    · rw [if_neg (fun h => h3 h.1)]
      exact fun h => h3 ((hrow c hc).mp h)
  have hothers : ∀ i (hi : i < (markPiece g.board g.current).length), i ≠ R →
      rowFull (markPiece g.board g.current)[i] = false := by
    intro i hi hne
    rw [← hgetD i hi]
    by_contra hf
    have hf' : rowFull ((markPiece g.board g.current).getD i []) = true := by simpa using hf
    obtain ⟨c, hc, hc3, hempty⟩ := hother i (by omega) hne
    have := (rowFull_getD_iff _ _).mp hf' c hc
    rw [hcell, if_neg (fun h => hc3 h.1)] at this
    exact this hempty
  obtain ⟨hcount, hfilter⟩ := countP_filter_single rowFull _ R hRlt hfullR hothers
  have hloop := clearLinesLoop_board (markPiece g.board g.current) hmlen
  rw [hcount, hfilter] at hloop
  have hboard : (lockPiece g).board
      = emptyRow :: ((markPiece g.board g.current).take R
          ++ (markPiece g.board g.current).drop (R + 1)) := by
    rw [lockPiece_board, hloop]; rfl
  have hlentake : ((markPiece g.board g.current).take R).length = R := by
    rw [List.length_take]; omega
  refine ⟨?_, hplace, ?_, hcell, ?_, ?_, ?_, ?_⟩
  · intro x y hcover
    exact horizontal_I_blocked g.board R (fun c hc h3 h => h3 ((hrow c hc).mp h)) x y hcover
  · rw [hcur]
    exact ⟨⟨2, 3⟩, (by decide : (⟨2, 3⟩ : Offset) ∈ shapeCells 0 1), by norm_num,
      by simp only []; omega⟩
  · rw [lockPiece_linesCleared g hwf.1, hcount]; rfl
  · rw [hboard]; rfl
  · intro r hr
    rw [hboard]
    simp only [List.getD_eq_getElem?_getD, List.getElem?_cons_succ]
    rw [List.getElem?_append_left (by omega), List.getElem?_take]
    simp [hr]
  · intro r hr
    rw [hboard]
    obtain ⟨k, rfl⟩ : ∃ k, r = k + 1 := ⟨r - 1, by omega⟩
    simp only [List.getD_eq_getElem?_getD, List.getElem?_cons_succ]
    rw [List.getElem?_append_right (by omega), List.getElem?_drop, hlentake]
    congr 2
    omega

theorem vertical_I_fills_hole_witness :
    holeGame.board.WF ∧ 19 < ROWS
      ∧ (∀ c < COLS, (cellAt holeGame.board 19 c = -1 ↔ c = 3))
      ∧ canPlace holeGame.board holeGame.current = true
      ∧ (lockPiece holeGame).linesCleared = holeGame.linesCleared + 1 :=
  ⟨by decide, by decide, by decide,
    (vertical_I_fills_hole holeGame 19 (by decide) (by decide) (by decide) (by decide)
      (by decide) rfl).2.1,
    (vertical_I_fills_hole holeGame 19 (by decide) (by decide) (by decide) (by decide)
      (by decide) rfl).2.2.2.2.1⟩

/-! ## The pause key -/

theorem reachable_hardDrops (n : Nat) (g : Game) (h : Reachable g) :
    Reachable (hardDrops n g) := by
  induction n generalizing g with
  | zero => exact h
  | succ n ih => exact ih _ (Reachable.step g Op.hardDrop h)

theorem reachable_stackedGame : Reachable stackedGame :=
  reachable_hardDrops 11 _ (Reachable.init _ (fun _ l => List.Perm.refl l))

set_option maxRecDepth 1000000 in
theorem stackedGame_isGameOver :
    stackedGame.isGameOver = true ∧ stackedGame.isPaused = false := by decide

/-- A pressed P in any state: the pause flag is flipped, nothing else is
touched. -/
theorem handleEvent_pause (g : Game) :
    handleEvent g (Event.keyPressed Key.p) = { g with isPaused := !g.isPaused } := by
  simp only [handleEvent]
  have h1 : ¬ (Key.p = Key.escape) := by decide
  simp only [if_neg h1, if_true]
  split
  · rfl
  · simp [handleGameKey]

/-- C10 (as stated, refuted): `stackedGame` is a reachable state with
`isGameOver` set, and handling a pressed P in it changes `isPaused`. -/
theorem pause_toggle_not_rejected_when_over :
    Reachable stackedGame ∧ stackedGame.isGameOver = true
      ∧ ¬ ((handleEvent stackedGame (Event.keyPressed Key.p)).isPaused
          = stackedGame.isPaused) := by
  refine ⟨reachable_stackedGame, stackedGame_isGameOver.1, ?_⟩
  rw [handleEvent_pause]
  simp

/-- C10 (amended): a pressed P is handled in every state, game over included:
it flips `isPaused` and changes nothing else, so `isGameOver`, the board, the
current piece and the score stay as they were. -/
theorem pause_toggle_always_flips (g : Game) :
    handleEvent g (Event.keyPressed Key.p) = { g with isPaused := !g.isPaused }
      ∧ (handleEvent g (Event.keyPressed Key.p)).isPaused = !g.isPaused
      ∧ (handleEvent g (Event.keyPressed Key.p)).isGameOver = g.isGameOver
      ∧ (handleEvent g (Event.keyPressed Key.p)).board = g.board
      ∧ (handleEvent g (Event.keyPressed Key.p)).current = g.current
      ∧ (handleEvent g (Event.keyPressed Key.p)).score = g.score := by
  rw [handleEvent_pause]
  exact ⟨rfl, rfl, rfl, rfl, rfl, rfl⟩

/-! ## Game over and pause -/

@[simp] theorem updateGhost_isGameOver (g : Game) :
    (updateGhost g).isGameOver = g.isGameOver := rfl

@[simp] theorem updateGhost_isPaused (g : Game) :
    (updateGhost g).isPaused = g.isPaused := rfl

theorem spawnNewPiece_current (g : Game) :
    (spawnNewPiece g).current = spawnPiece g.bag.next.1 := by
  unfold spawnNewPiece
  simp only []
  split <;> rfl

theorem spawnNewPiece_isGameOver (g : Game) :
    (spawnNewPiece g).isGameOver
      = (g.isGameOver || !canPlace g.board (spawnPiece g.bag.next.1)) := by
  unfold spawnNewPiece
  simp only []
  split
  · rename_i h
    have h' : (!canPlace g.board (spawnPiece g.bag.next.1)) = true := h
    simp [updateGhost, h']
  · rename_i h
    have h' : ¬ (!canPlace g.board (spawnPiece g.bag.next.1)) = true := h
    simp only [Bool.not_eq_true] at h'
    simp [updateGhost, h']

theorem clearLines_isGameOver (g : Game) : (clearLines g).isGameOver = g.isGameOver := by
  unfold clearLines
  simp only []
  split_ifs <;> rfl

theorem lockPiece_keeps_over (g : Game) (h : g.isGameOver = true) :
    (lockPiece g).isGameOver = true := by
  unfold lockPiece
  rw [spawnNewPiece_isGameOver, clearLines_isGameOver]
  simp [h]

theorem run_keeps_over (op : Op) (g : Game) (h : g.isGameOver = true) :
    (op.run g).isGameOver = true := by
  cases op with
  | moveHorizontal dx =>
    simp only [Op.run, moveHorizontal, updateGhost_isGameOver]
    split_ifs <;> exact h
  | rotate dir =>
    simp only [Op.run, rotate, updateGhost_isGameOver]
    split <;> exact h
  | softDropStep =>
    simp only [Op.run, softDropStep, updateGhost_isGameOver]
    split_ifs
    · exact h
    · exact lockPiece_keeps_over g h
  | gravityStep =>
    simp only [Op.run, gravityStep, updateGhost_isGameOver]
    split_ifs
    · exact h
    · exact lockPiece_keeps_over g h
  | hardDrop =>
    simp only [Op.run, hardDrop, updateGhost_isGameOver]
    exact lockPiece_keeps_over _ h
  | lockPiece => exact lockPiece_keeps_over g h
  | clearLines => simp only [Op.run]; rw [clearLines_isGameOver]; exact h
  | spawnNewPiece => simp only [Op.run]; rw [spawnNewPiece_isGameOver]; simp [h]

/-- In a state with `isGameOver` or `isPaused` set, `handleHeldKeys` returns at
once. -/
theorem handleHeldKeys_frozen (g : Game) (h : g.isGameOver = true ∨ g.isPaused = true) :
    handleHeldKeys g = g := by
  unfold handleHeldKeys
  have : (g.isGameOver || g.isPaused) = true := by
    rcases h with h | h <;> simp [h]
  rw [if_pos this]

theorem update_frozen (g : Game) (h : g.isGameOver = true ∨ g.isPaused = true) :
    update g = g := by
  unfold update
  simp only [handleHeldKeys_frozen g h]
  have : (g.isGameOver || g.isPaused) = true := by
    rcases h with h | h <;> simp [h]
  rw [if_pos this]

theorem handleEvent_keeps_over (g : Game) (e : Event) (h : g.isGameOver = true) :
    (handleEvent g e).isGameOver = true := by
  cases e with
  | closed => exact h
  | other => exact h
  | keyReleased code =>
    simp only [handleEvent]
    split_ifs <;> exact h
  | keyPressed code =>
    simp only [handleEvent]
    split_ifs <;> simp_all

/-- A pressed gameplay key in a state with `isGameOver` or `isPaused` set is
skipped by the `continue` of `handleInput`. -/
theorem handleEvent_frozen (g : Game) (h : g.isGameOver = true ∨ g.isPaused = true)
    (code : Key) (hcode : code ∈ [Key.left, Key.right, Key.down, Key.up, Key.x, Key.z, Key.space]) :
    handleEvent g (Event.keyPressed code) = g := by
  have hne : code ≠ Key.escape ∧ code ≠ Key.p := by
    simp only [List.mem_cons, List.mem_singleton, List.not_mem_nil, or_false] at hcode
    rcases hcode with rfl | rfl | rfl | rfl | rfl | rfl | rfl <;> decide
  have hf : (g.isGameOver || g.isPaused) = true := by
    rcases h with h | h <;> simp [h]
  simp only [handleEvent, if_neg hne.1, if_neg hne.2, hf, if_true]

/-- C11: game over is terminal and, like pause, freezes the game. No operation,
event, frame update or wait turns `isGameOver` from true to false; and while
`isGameOver` or `isPaused` is set, a pressed Left, Right, Down, Up, X, Z or
Space, `handleHeldKeys` and `update` leave the whole state as it is, so the
board, the current piece, the score, `linesCleared` and `level` are
unchanged. -/
theorem game_over_terminal_and_frozen (g : Game) :
    (g.isGameOver = true →
        (∀ op : Op, (op.run g).isGameOver = true)
          ∧ (∀ e : Event, (handleEvent g e).isGameOver = true)
          ∧ (handleHeldKeys g).isGameOver = true
          ∧ (update g).isGameOver = true
          ∧ (∀ dt : ℚ, (elapse dt g).isGameOver = true))
      ∧ (g.isGameOver = true ∨ g.isPaused = true →
        (∀ code ∈ [Key.left, Key.right, Key.down, Key.up, Key.x, Key.z, Key.space],
            handleEvent g (Event.keyPressed code) = g)
          ∧ handleHeldKeys g = g
          ∧ update g = g) := by
  constructor
  · intro h
    refine ⟨fun op => run_keeps_over op g h, fun e => handleEvent_keeps_over g e h, ?_, ?_,
      fun _ => h⟩
    · rw [handleHeldKeys_frozen g (Or.inl h)]; exact h
    · rw [update_frozen g (Or.inl h)]; exact h
  · intro h
    exact ⟨fun code hcode => handleEvent_frozen g h code hcode, handleHeldKeys_frozen g h,
      update_frozen g h⟩

theorem game_over_terminal_and_frozen_witness :
    stackedGame.isGameOver = true
      ∧ handleEvent stackedGame (Event.keyPressed Key.space) = stackedGame
      ∧ update stackedGame = stackedGame
      ∧ (Op.hardDrop.run stackedGame).isGameOver = true :=
  ⟨stackedGame_isGameOver.1,
    ((game_over_terminal_and_frozen stackedGame).2 (Or.inl stackedGame_isGameOver.1)).1
      Key.space (by decide),
    ((game_over_terminal_and_frozen stackedGame).2 (Or.inl stackedGame_isGameOver.1)).2.2,
    ((game_over_terminal_and_frozen stackedGame).1 stackedGame_isGameOver.1).1 Op.hardDrop⟩

/-! ## Spawning -/

/-- C12: for every board and every kind drawn from the bag, `spawnNewPiece`
makes the current piece that kind at rotation 0, `x = COLS/2 - 2 = 3`,
`y = -1`, leaves the board unchanged, and, when `isGameOver` was false, sets it
exactly when `canPlace` of the spawned piece is false. -/
theorem spawnNewPiece_spec (g : Game) :
    (spawnNewPiece g).current
        = { kind := g.bag.next.1, rotation := 0, x := ((COLS / 2 : Nat) : Int) - 2, y := -1 }
      ∧ ((COLS / 2 : Nat) : Int) - 2 = 3
      ∧ (spawnNewPiece g).board = g.board
      ∧ (spawnNewPiece g).isGameOver
          = (g.isGameOver || !canPlace g.board (spawnNewPiece g).current)
      ∧ (g.isGameOver = false →
          ((spawnNewPiece g).isGameOver = true
            ↔ canPlace (spawnNewPiece g).board (spawnNewPiece g).current = false)) := by
  have hc := spawnNewPiece_current g
  have ho := spawnNewPiece_isGameOver g
  refine ⟨hc, by decide, spawnNewPiece_board g, ?_, ?_⟩
  · rw [ho, hc]
  · intro h
    rw [ho, hc, spawnNewPiece_board, h]
    simp

/-! ## Hard drop -/

theorem Piece.downBy_zero (p : Piece) : p.downBy 0 = p := by
  cases p; simp [Piece.downBy]

theorem Piece.down_downBy (p : Piece) (n : Nat) : p.down.downBy n = p.downBy (n + 1) := by
  simp only [Piece.downBy, Piece.down, Piece.mk.injEq, true_and]
  push_cast
  ring

theorem Piece.downBy_one (p : Piece) : p.downBy 1 = p.down := by
  simp [Piece.downBy, Piece.down]

/-- The loop of `hardDrop` with a sufficient budget: the piece goes down `d`
rows, where it is placeable at each of the rows passed and not one row lower,
and `dist` grows by `d`. -/
theorem hardDropLoop_spec (b : Board) (fuel : Nat) (p : Piece) (dist : Int)
    (hk : p.kind < 7) (hr : p.rotation < 4) (hf : dropFuel p ≤ fuel) :
    ∃ d : Nat, hardDropLoop b fuel p dist = (p.downBy d, dist + d)
      ∧ (∀ i, 1 ≤ i → i ≤ d → canPlace b (p.downBy i) = true)
      ∧ canPlace b (p.downBy (d + 1)) = false := by
  induction fuel generalizing p dist with
  | zero => simp [dropFuel] at hf
  | succ n ih =>
    rw [hardDropLoop]
    by_cases hc : canPlace b p.down = true
    · have hy := canPlace_y_lt b p.down hk hr hc
      obtain ⟨d, h1, h2, h3⟩ := ih p.down (dist + 1) hk hr (dropFuel_down p n hy hf)
      refine ⟨d + 1, ?_, ?_, ?_⟩
      · rw [if_pos hc, h1, Piece.down_downBy]
        congr 1
        push_cast
        ring
      · intro i hi1 hi2
        by_cases hi : i = 1
        · rw [hi, Piece.downBy_one]; exact hc
        · obtain ⟨j, rfl⟩ : ∃ j, i = j + 1 := ⟨i - 1, by omega⟩
          rw [← Piece.down_downBy]
          exact h2 j (by omega) (by omega)
      · rw [← Piece.down_downBy]; exact h3
    · refine ⟨0, ?_, ?_, ?_⟩
      · rw [if_neg hc, Piece.downBy_zero]; simp
      · intro i hi1 hi2; omega
      · rw [Piece.downBy_one]; simpa using hc

/-- C13: for a current piece of a valid kind and rotation, `hardDrop` moves it
straight down by `d` rows, `d` the largest number with the piece placeable at
each of `y+1 .. y+d`, adds `2*d` to the score, and then locks it at `y+d`,
also when `d = 0`. -/
theorem hardDrop_lands_and_locks (g : Game) (hk : g.current.kind < 7)
    (hr : g.current.rotation < 4) :
    ∃ d : Nat,
      (∀ i, 1 ≤ i → i ≤ d → canPlace g.board (g.current.downBy i) = true)
        ∧ canPlace g.board (g.current.downBy (d + 1)) = false
        ∧ (∀ d' : Nat, (∀ i, 1 ≤ i → i ≤ d' → canPlace g.board (g.current.downBy i) = true) →
            d' ≤ d)
        ∧ hardDrop g
          = updateGhost
              (lockPiece { g with current := g.current.downBy d, score := g.score + 2 * d }) := by
  obtain ⟨d, h1, h2, h3⟩ :=
    hardDropLoop_spec g.board (dropFuel g.current) g.current 0 hk hr (le_refl _)
  refine ⟨d, h2, h3, ?_, ?_⟩
  · intro d' hd'
    by_contra hlt
    have := hd' (d + 1) (by omega) (by omega)
    rw [h3] at this
    cases this
  · unfold hardDrop
    simp only [h1]
    congr 3
    ring

theorem hardDrop_lands_and_locks_witness :
    spawnOGame.current.kind < 7 ∧ spawnOGame.current.rotation < 4
      ∧ ∃ d : Nat,
        (∀ i, 1 ≤ i → i ≤ d → canPlace spawnOGame.board (spawnOGame.current.downBy i) = true)
          ∧ canPlace spawnOGame.board (spawnOGame.current.downBy (d + 1)) = false
          ∧ (∀ d' : Nat,
              (∀ i, 1 ≤ i → i ≤ d' →
                canPlace spawnOGame.board (spawnOGame.current.downBy i) = true) → d' ≤ d)
          ∧ hardDrop spawnOGame
            = updateGhost (lockPiece { spawnOGame with
                current := spawnOGame.current.downBy d, score := spawnOGame.score + 2 * d }) :=
  ⟨by decide, by decide, hardDrop_lands_and_locks spawnOGame (by decide) (by decide)⟩

/-! ## The ghost piece -/

/-- C14: the ghost is the hard-drop landing. The piece stored by `updateGhost`
has the kind, rotation and `x` of the current piece, a `y` not above it, and
is not placeable one row lower; it is the piece at which `hardDrop` locks the
current piece, so the marking loop run by `hardDrop` writes the kind into the
cells of the ghost that lie in the grid (rows `>= 0`) and no other cell;
`updateGhost` changes the field `ghost` only. -/
theorem ghost_is_hardDrop_landing (g : Game) (hwf : g.board.WF) (hk : g.current.kind < 7)
    (hr : g.current.rotation < 4) :
    ∃ gh : Piece, ∃ d : Nat,
      updateGhost g = { g with ghost := some gh }
        ∧ gh = { g.current with y := g.current.y + d }
        ∧ canPlace g.board gh.down = false
        ∧ (hardDropLoop g.board (dropFuel g.current) g.current 0).1 = gh
        ∧ hardDrop g
          = updateGhost (spawnNewPiece (clearLines { g with
              current := gh, score := g.score + 2 * d, board := markPiece g.board gh }))
        ∧ (∀ r c, cellAt (markPiece g.board gh) r c
            = if r < ROWS ∧ c < COLS
                ∧ ∃ o ∈ shapeCells gh.kind gh.rotation, gh.y + o.y = r ∧ gh.x + o.x = c
              then (gh.kind : Int) else cellAt g.board r c) := by
  obtain ⟨d, h1, _, h3⟩ :=
    hardDropLoop_spec g.board (dropFuel g.current) g.current 0 hk hr (le_refl _)
  refine ⟨g.current.downBy d, d, ?_, rfl, ?_, ?_, ?_, ?_⟩
  · unfold updateGhost
    rw [ghostLoop_eq_hardDropLoop g.board (dropFuel g.current) g.current 0, h1]
  · rw [← Piece.downBy_one, ← h3]
    simp only [Piece.downBy, Piece.down]
    congr 2
    omega
  · rw [h1]
  · unfold hardDrop lockPiece
    simp only [h1]
    congr 4
    ring
  · intro r c
    exact cellAt_markCells _ _ _ g.board hwf _ r c

theorem ghost_is_hardDrop_landing_witness :
    spawnOGame.board.WF ∧ spawnOGame.current.kind < 7 ∧ spawnOGame.current.rotation < 4
      ∧ ∃ gh : Piece, ∃ d : Nat,
        updateGhost spawnOGame = { spawnOGame with ghost := some gh }
          ∧ gh = { spawnOGame.current with y := spawnOGame.current.y + d }
          ∧ canPlace spawnOGame.board gh.down = false
          ∧ (hardDropLoop spawnOGame.board (dropFuel spawnOGame.current)
              spawnOGame.current 0).1 = gh
          ∧ hardDrop spawnOGame
            = updateGhost (spawnNewPiece (clearLines { spawnOGame with
                current := gh, score := spawnOGame.score + 2 * d,
                board := markPiece spawnOGame.board gh }))
          ∧ (∀ r c, cellAt (markPiece spawnOGame.board gh) r c
              = if r < ROWS ∧ c < COLS
                  ∧ ∃ o ∈ shapeCells gh.kind gh.rotation, gh.y + o.y = r ∧ gh.x + o.x = c
                then (gh.kind : Int) else cellAt spawnOGame.board r c) :=
  ⟨by decide, by decide, by decide,
    ghost_is_hardDrop_landing spawnOGame (by decide) (by decide) (by decide)⟩

/-! ## Soft drop and gravity -/

/-- C15: from the same state `softDropStep` and `gravityStep` give the same
board, current piece, ghost, `linesCleared`, `level`, `isGameOver` and bag;
when the piece can move down one row the soft-drop score is higher by exactly
1, and when it cannot (the piece locks) the two scores are equal. -/
theorem softDrop_gravity_same_step (g : Game) :
    (softDropStep g).board = (gravityStep g).board
      ∧ (softDropStep g).current = (gravityStep g).current
      ∧ (softDropStep g).ghost = (gravityStep g).ghost
      ∧ (softDropStep g).linesCleared = (gravityStep g).linesCleared
      ∧ (softDropStep g).level = (gravityStep g).level
      ∧ (softDropStep g).isGameOver = (gravityStep g).isGameOver
      ∧ (softDropStep g).bag.bag = (gravityStep g).bag.bag
      ∧ (softDropStep g).bag.bagIndex = (gravityStep g).bag.bagIndex
      ∧ (canPlace g.board g.current.down = true →
          (softDropStep g).score = (gravityStep g).score + 1
            ∧ (gravityStep g).score = g.score
            ∧ (gravityStep g).current = g.current.down)
      ∧ (canPlace g.board g.current.down = false →
          (softDropStep g).score = (gravityStep g).score
            ∧ softDropStep g = updateGhost (lockPiece g)
            ∧ gravityStep g = updateGhost (lockPiece g)) := by
  by_cases h : canPlace g.board g.current.down = true
  · simp [softDropStep, gravityStep, h, updateGhost]
  · have h' : canPlace g.board g.current.down = false := by simpa using h
    simp [softDropStep, gravityStep, h', updateGhost]

/-! ## The marking step of lockPiece -/

/-- The marking loop skips every cell outside the grid. -/
theorem markCells_outside (kind : Nat) (px py : Int) (b : Board) (cells : List Offset)
    (h : ∀ o ∈ cells, ¬ (py + o.y ≥ 0 ∧ py + o.y < ROWS ∧ px + o.x ≥ 0 ∧ px + o.x < COLS)) :
    markCells kind px py b cells = b := by
  induction cells with
  | nil => rfl
  | cons o os ih =>
    simp only [markCells]
    rw [if_neg (h o (List.mem_cons_self _ _))]
    exact ih (fun o' ho' => h o' (List.mem_cons_of_mem _ ho'))

/-- C16: on a 20x10 board the cell-marking step of `lockPiece` (the board
passed on to `clearLines`) holds the piece's kind in exactly the grid cells
covered by an absolute cell `(x + cx, y + cy)` of the piece, which have row
`>= 0`; every other cell is unchanged, the board keeps its size, and a piece
with every cell above the grid leaves the board as it is. -/
theorem lockPiece_marks_covered_cells (g : Game) (hwf : g.board.WF) :
    lockPiece g = spawnNewPiece (clearLines { g with board := markPiece g.board g.current })
      ∧ (markPiece g.board g.current).WF
      ∧ (∀ r c, r < ROWS → c < COLS →
          cellAt (markPiece g.board g.current) r c
            = if ∃ o ∈ shapeCells g.current.kind g.current.rotation,
                  g.current.y + o.y = r ∧ g.current.x + o.x = c
              then (g.current.kind : Int) else cellAt g.board r c)
      ∧ ((∀ o ∈ shapeCells g.current.kind g.current.rotation, g.current.y + o.y < 0) →
          markPiece g.board g.current = g.board) := by
  refine ⟨rfl, markCells_WF _ _ _ _ hwf _, ?_, ?_⟩
  · intro r c hr hc
    unfold markPiece
    rw [cellAt_markCells _ _ _ g.board hwf]
    by_cases h : ∃ o ∈ shapeCells g.current.kind g.current.rotation,
        g.current.y + o.y = r ∧ g.current.x + o.x = c
    · rw [if_pos ⟨hr, hc, h⟩, if_pos h]
    · rw [if_neg (fun h' => h h'.2.2), if_neg h]
  · intro h
    exact markCells_outside _ _ _ _ _ (fun o ho hin => by have := h o ho; omega)

theorem lockPiece_marks_covered_cells_witness :
    lineGame.board.WF
      ∧ (∀ r c, r < ROWS → c < COLS →
          cellAt (markPiece lineGame.board lineGame.current) r c
            = if ∃ o ∈ shapeCells lineGame.current.kind lineGame.current.rotation,
                  lineGame.current.y + o.y = r ∧ lineGame.current.x + o.x = c
              then (lineGame.current.kind : Int) else cellAt lineGame.board r c) :=
  ⟨by decide, (lockPiece_marks_covered_cells lineGame (by decide)).2.2.1⟩

/-! ## Level and the gravity table -/

theorem reachable_session (g : Game) (h : Reachable g) : Session g := by
  induction h with
  | init shuffle hs => exact Session.init shuffle hs
  | step g op _ ih => exact Session.op g op ih

theorem clearLines_levelOk (g : Game) (h : LevelOk g) : LevelOk (clearLines g) := by
  unfold clearLines
  simp only []
  split_ifs with hpos
  · refine ⟨rfl, ?_⟩
    simp only []
    have := h.2
    omega
  · exact h

theorem spawnNewPiece_levelOk (g : Game) (h : LevelOk g) : LevelOk (spawnNewPiece g) := by
  unfold LevelOk
  rw [spawnNewPiece_level, spawnNewPiece_linesCleared]
  exact h

theorem lockPiece_levelOk (g : Game) (h : LevelOk g) : LevelOk (lockPiece g) := by
  unfold lockPiece
  exact spawnNewPiece_levelOk _ (clearLines_levelOk { g with board := markPiece g.board g.current } h)

theorem run_levelOk (op : Op) (g : Game) (h : LevelOk g) : LevelOk (op.run g) := by
  cases op with
  | moveHorizontal dx =>
    simp only [Op.run, moveHorizontal, LevelOk, updateGhost_level, updateGhost_linesCleared]
    split_ifs <;> exact h
  | rotate dir =>
    simp only [Op.run, rotate, LevelOk, updateGhost_level, updateGhost_linesCleared]
    split <;> exact h
  | softDropStep =>
    simp only [Op.run, softDropStep, LevelOk, updateGhost_level, updateGhost_linesCleared]
    split_ifs
    · exact h
    · exact lockPiece_levelOk g h
  | gravityStep =>
    simp only [Op.run, gravityStep, LevelOk, updateGhost_level, updateGhost_linesCleared]
    split_ifs
    · exact h
    · exact lockPiece_levelOk g h
  | hardDrop =>
    simp only [Op.run, hardDrop, LevelOk, updateGhost_level, updateGhost_linesCleared]
    exact lockPiece_levelOk _ h
  | lockPiece => exact lockPiece_levelOk g h
  | clearLines => exact clearLines_levelOk g h
  | spawnNewPiece => exact spawnNewPiece_levelOk g h

/-- The chain of key tests of `handleInput` after the pause test, key by key. -/
theorem handleGameKey_eq (g : Game) (code : Key) :
    handleGameKey g code =
      match code with
      | Key.up => rotate g 1
      | Key.x => rotate g 1
      | Key.z => rotate g (-1)
      | Key.space => hardDrop g
      | Key.left =>
        { moveHorizontal g (-1) with
          leftHeld := true, rightHeld := false, lateralRepeatClock := 0 }
      | Key.right =>
        { moveHorizontal g 1 with rightHeld := true, leftHeld := false, lateralRepeatClock := 0 }
      | Key.down => { g with downHeld := true }
      | Key.escape => g
      | Key.p => g
      | Key.other => g := by
  cases code <;> rfl

/-- The handling of a pressed key: Escape and P act first, then the pause
test, then the gameplay keys. -/
theorem handleEvent_keyPressed_eq (g : Game) (code : Key) :
    handleEvent g (Event.keyPressed code) =
      if ((match code with
            | Key.escape => { g with windowOpen := false }
            | Key.p => { g with isPaused := !g.isPaused }
            | _ => g).isGameOver
          || (match code with
            | Key.escape => { g with windowOpen := false }
            | Key.p => { g with isPaused := !g.isPaused }
            | _ => g).isPaused) then
        (match code with
          | Key.escape => { g with windowOpen := false }
          | Key.p => { g with isPaused := !g.isPaused }
          | _ => g)
      else handleGameKey
        (match code with
          | Key.escape => { g with windowOpen := false }
          | Key.p => { g with isPaused := !g.isPaused }
          | _ => g) code := by
  cases code <;> rfl

theorem handleGameKey_levelOk (g : Game) (code : Key) (h : LevelOk g) :
    LevelOk (handleGameKey g code) := by
  rw [handleGameKey_eq]
  cases code
  · exact h
  · exact h
  · exact run_levelOk (Op.rotate 1) g h
  · exact run_levelOk (Op.rotate 1) g h
  · exact run_levelOk (Op.rotate (-1)) g h
  · exact run_levelOk Op.hardDrop g h
  · exact run_levelOk (Op.moveHorizontal (-1)) g h
  · exact run_levelOk (Op.moveHorizontal 1) g h
  · exact h
  · exact h

theorem handleEvent_levelOk (g : Game) (e : Event) (h : LevelOk g) :
    LevelOk (handleEvent g e) := by
  cases e with
  | closed => exact h
  | other => exact h
  | keyReleased code =>
    simp only [handleEvent]
    split_ifs <;> exact h
  | keyPressed code =>
    rw [handleEvent_keyPressed_eq]
    have h2 : LevelOk (match code with
        | Key.escape => { g with windowOpen := false }
        | Key.p => { g with isPaused := !g.isPaused }
        | _ => g) := by
      cases code <;> exact h
    split_ifs
    · exact h2
    · exact handleGameKey_levelOk _ code h2

theorem repeatMove_levelOk (n : Nat) (g : Game) (h : LevelOk g) : LevelOk (repeatMove n g) := by
  induction n generalizing g with
  | zero => exact h
  | succ n ih => exact ih _ (run_levelOk (Op.moveHorizontal _) g h)

theorem lateralRepeat_levelOk (g : Game) (h : LevelOk g) : LevelOk (lateralRepeat g).2 := by
  unfold lateralRepeat
  simp only []
  split_ifs
  · exact repeatMove_levelOk _ _ h
  · exact h
  · exact h

theorem softRepeat_levelOk (g : Game) (h : LevelOk g) : LevelOk (softRepeat g) := by
  unfold softRepeat
  simp only []
  split_ifs
  · exact run_levelOk Op.softDropStep _ h
  · exact h
  · exact h

theorem handleHeldKeys_levelOk (g : Game) (h : LevelOk g) : LevelOk (handleHeldKeys g) := by
  unfold handleHeldKeys
  split_ifs
  · exact h
  · exact softRepeat_levelOk _ (lateralRepeat_levelOk g h)

theorem update_levelOk (g : Game) (h : LevelOk g) : LevelOk (update g) := by
  unfold update
  have h1 := handleHeldKeys_levelOk g h
  generalize handleHeldKeys g = g1 at h1
  simp only []
  split_ifs
  · exact h1
  · exact run_levelOk Op.gravityStep _ h1
  · exact h1

theorem session_levelOk (g : Game) (h : Session g) : LevelOk g := by
  induction h with
  | init shuffle hs =>
    unfold newGame
    apply spawnNewPiece_levelOk
    exact ⟨(by decide : (0 : Int) = min 19 (Int.tdiv 0 10)), le_refl _⟩
  | op g o _ ih => exact run_levelOk o g ih
  | event g e _ ih => exact handleEvent_levelOk g e ih
  | held g _ ih => exact handleHeldKeys_levelOk g ih
  | frame g _ ih => exact update_levelOk g ih
  | wait g dt _ _ ih => exact ih

theorem GRAVITY_LEVELS_length : GRAVITY_LEVELS.length = 20 := rfl

/-- C17: in every state of a session `level = min(19, linesCleared / 10)`
(line count not negative, so truncating and flooring division agree), hence
`0 <= level <= 19` and `GRAVITY_LEVELS[level]` in `currentGravityInterval`
reads one of the 20 entries of the table. -/
theorem level_indexes_gravity_table (g : Game) (h : Session g) :
    g.level = min 19 (Int.tdiv g.linesCleared 10)
      ∧ g.level = min 19 (g.linesCleared / 10)
      ∧ 0 ≤ g.linesCleared
      ∧ 0 ≤ g.level ∧ g.level ≤ 19
      ∧ GRAVITY_LEVELS.length = 20
      ∧ g.level.toNat < GRAVITY_LEVELS.length
      ∧ GRAVITY_LEVELS[g.level.toNat]? = some (currentGravityInterval g) := by
  obtain ⟨hl, hn⟩ := session_levelOk g h
  have hdiv : Int.tdiv g.linesCleared 10 = g.linesCleared / 10 :=
    Int.tdiv_eq_ediv hn (by norm_num)
  have h0 : 0 ≤ g.level := by
    rw [hl]
    exact le_min (by norm_num) (Int.tdiv_nonneg hn (by norm_num))
  have h19 : g.level ≤ 19 := by
    rw [hl]
    exact min_le_left _ _
  have hlt : g.level.toNat < GRAVITY_LEVELS.length := by
    rw [GRAVITY_LEVELS_length]
    omega
  refine ⟨hl, by rw [← hdiv]; exact hl, hn, h0, h19, rfl, hlt, ?_⟩
  unfold currentGravityInterval
  rw [List.getD_eq_getElem?_getD, List.getElem?_eq_getElem hlt]
  rfl

theorem level_indexes_gravity_table_witness :
    Session stackedGame ∧ stackedGame.level.toNat < GRAVITY_LEVELS.length :=
  ⟨reachable_session _ reachable_stackedGame,
    (level_indexes_gravity_table stackedGame
      (reachable_session _ reachable_stackedGame)).2.2.2.2.2.2.1⟩

/-! ## Shapes and idempotent descent -/

/-- C18: for every kind in `0..6` and rotation in `0..3` the entry of `SHAPES`
consists of 4 pairwise distinct local offsets, each with `0 <= x < 4` and
`0 <= y < 4`. -/
theorem shapes_in_local_grid (kind rotation : Nat) (hk : kind < 7) (hr : rotation < 4) :
    (shapeCells kind rotation).length = 4
      ∧ (shapeCells kind rotation).Nodup
      ∧ ∀ o ∈ shapeCells kind rotation, 0 ≤ o.x ∧ o.x < 4 ∧ 0 ≤ o.y ∧ o.y < 4 := by
  interval_cases kind <;> interval_cases rotation <;> decide

theorem shapes_in_local_grid_witness :
    (6 : Nat) < 7 ∧ (3 : Nat) < 4
      ∧ (shapeCells 6 3).length = 4
      ∧ (shapeCells 6 3).Nodup
      ∧ ∀ o ∈ shapeCells 6 3, 0 ≤ o.x ∧ o.x < 4 ∧ 0 ≤ o.y ∧ o.y < 4 :=
  ⟨by decide, by decide, shapes_in_local_grid 6 3 (by decide) (by decide)⟩

/-- The table has 7 kinds of 4 rotation states each. -/
theorem SHAPES_dimensions : SHAPES.length = 7 ∧ ∀ shape ∈ SHAPES, shape.length = 4 := by
  decide

/-- A piece that is not placeable one row lower is where both descent loops
stop at once. -/
theorem hardDropLoop_at_rest (b : Board) (fuel : Nat) (p : Piece) (dist : Int)
    (h : canPlace b p.down = false) : hardDropLoop b fuel p dist = (p, dist) := by
  cases fuel with
  | zero => rfl
  | succ n => rw [hardDropLoop]; simp [h]

theorem ghostLoop_at_rest (b : Board) (fuel : Nat) (p : Piece)
    (h : canPlace b p.down = false) : ghostLoop b fuel p = p := by
  rw [ghostLoop_eq_hardDropLoop b fuel p 0, hardDropLoop_at_rest b fuel p 0 h]

theorem ghostLoop_lands (b : Board) (fuel : Nat) (p : Piece)
    (hk : p.kind < 7) (hr : p.rotation < 4) (hf : dropFuel p ≤ fuel) :
    canPlace b (ghostLoop b fuel p).down = false := by
  rw [ghostLoop_eq_hardDropLoop b fuel p 0]
  exact hardDropLoop_lands b fuel p 0 hk hr hf

/-- C19: the descent loops of `hardDrop` and `updateGhost` are idempotent in
their result. For a piece of a valid kind and rotation on any board, the
descent run again from the landing it returned returns that landing, with
distance 0; hence `updateGhost` twice is `updateGhost` once, and a second
descent from the same start gives the same landing. -/
theorem descent_idempotent (b : Board) (p : Piece) (hk : p.kind < 7) (hr : p.rotation < 4) :
    hardDropLoop b (dropFuel (hardDropLoop b (dropFuel p) p 0).1)
        (hardDropLoop b (dropFuel p) p 0).1 0
        = ((hardDropLoop b (dropFuel p) p 0).1, 0)
      ∧ ghostLoop b (dropFuel (ghostLoop b (dropFuel p) p)) (ghostLoop b (dropFuel p) p)
        = ghostLoop b (dropFuel p) p
      ∧ ghostLoop b (dropFuel p) p = (hardDropLoop b (dropFuel p) p 0).1
      ∧ (∀ g : Game, g.board = b → g.current = p →
          updateGhost (updateGhost g) = updateGhost g
            ∧ (updateGhost g).ghost = some (hardDropLoop b (dropFuel p) p 0).1) := by
  have h1 := hardDropLoop_lands b (dropFuel p) p 0 hk hr (le_refl _)
  have h2 := ghostLoop_lands b (dropFuel p) p hk hr (le_refl _)
  refine ⟨hardDropLoop_at_rest b _ _ 0 h1, ghostLoop_at_rest b _ _ h2,
    ghostLoop_eq_hardDropLoop b _ p 0, ?_⟩
  intro g hb hc
  subst hb hc
  refine ⟨rfl, ?_⟩
  unfold updateGhost
  rw [ghostLoop_eq_hardDropLoop g.board _ g.current 0]

theorem descent_idempotent_witness :
    spawnO.kind < 7 ∧ spawnO.rotation < 4
      ∧ hardDropLoop emptyBoard (dropFuel (hardDropLoop emptyBoard (dropFuel spawnO) spawnO 0).1)
          (hardDropLoop emptyBoard (dropFuel spawnO) spawnO 0).1 0
        = ((hardDropLoop emptyBoard (dropFuel spawnO) spawnO 0).1, 0) :=
  ⟨by decide, by decide, (descent_idempotent emptyBoard spawnO (by decide) (by decide)).1⟩

/-! ## Lateral auto-repeat -/

theorem holding_moveHorizontal (g : Game) (t c : ℚ) (dx : Int) (h : Holding g t c) :
    Holding (moveHorizontal g dx) t c := by
  unfold moveHorizontal
  simp only []
  split_ifs <;> exact h

theorem holding_repeatMove (n : Nat) (g : Game) (t c : ℚ) (h : Holding g t c) :
    Holding (repeatMove n g) t c := by
  induction n generalizing g with
  | zero => exact h
  | succ n ih => exact ih _ (holding_moveHorizontal g t c _ h)

theorem holding_elapse (g : Game) (t c dt : ℚ) (h : Holding g t c) :
    Holding (elapse dt g) (t + dt) c := by
  obtain ⟨h1, h2, h3, h4, h5, h6⟩ := h
  exact ⟨h1, h2, h3, h4, by simp [elapse, h5], h6⟩

theorem handleHeldKeys_running (g : Game) (h1 : g.isGameOver = false) (h2 : g.isPaused = false) :
    handleHeldKeys g = softRepeat (lateralRepeat g).2 := by
  unfold handleHeldKeys
  have : ¬ ((g.isGameOver || g.isPaused) = true) := by simp [h1, h2]
  rw [if_neg this]

theorem softRepeat_not_down (g : Game) (h : g.downHeld = false) : softRepeat g = g := by
  unfold softRepeat
  have : ¬ (g.downHeld = true) := by simp [h]
  rw [if_neg this]

/-- A call of `handleHeldKeys` with the clock not past `das`: no move. -/
theorem holding_idle (g : Game) (t c : ℚ) (h : Holding g t c) (ht : t ≤ das) :
    (lateralRepeat g).1 = 0 ∧ Holding (handleHeldKeys g) t c := by
  have hnot : ¬ g.lateralRepeatClock > das := by rw [h.2.2.2.2.1]; exact not_lt.mpr ht
  have hheld : (g.leftHeld || g.rightHeld) = true := by simp [h.2.2.1]
  have hl : lateralRepeat g = (0, g) := by
    unfold lateralRepeat
    simp only []
    rw [if_pos hheld, if_neg hnot]
  refine ⟨by rw [hl], ?_⟩
  rw [handleHeldKeys_running g h.1 h.2.1, hl, softRepeat_not_down g h.2.2.2.1]
  exact h

/-- A call of `handleHeldKeys` with the clock past `das`: the moves are issued,
the remainder is carried, and the clock restarts from zero. -/
theorem holding_fire (g : Game) (t c : ℚ) (h : Holding g t c) (ht : das < t) :
    (lateralRepeat g).1 = (truncToInt ((t - das + c) / arr)).toNat
      ∧ Holding (handleHeldKeys g) 0
          ((t - das + c) - (truncToInt ((t - das + c) / arr) : ℚ) * arr) := by
  have hgt : g.lateralRepeatClock > das := by rw [h.2.2.2.2.1]; exact ht
  have hheld : (g.leftHeld || g.rightHeld) = true := by simp [h.2.2.1]
  have hl : lateralRepeat g
      = ((truncToInt ((g.lateralRepeatClock - das + g.carry) / arr)).toNat,
          repeatMove (truncToInt ((g.lateralRepeatClock - das + g.carry) / arr)).toNat
            { g with
              carry := (g.lateralRepeatClock - das + g.carry)
                - (truncToInt ((g.lateralRepeatClock - das + g.carry) / arr) : ℚ) * arr
              lateralRepeatClock := 0 }) := by
    unfold lateralRepeat
    simp only []
    rw [if_pos hheld, if_pos hgt]
  have hh : Holding (lateralRepeat g).2 0
      ((g.lateralRepeatClock - das + g.carry)
        - (truncToInt ((g.lateralRepeatClock - das + g.carry) / arr) : ℚ) * arr) := by
    rw [hl]
    exact holding_repeatMove _ _ _ _ ⟨h.1, h.2.1, h.2.2.1, h.2.2.2.1, rfl, rfl⟩
  rw [h.2.2.2.2.1, h.2.2.2.2.2] at hh
  refine ⟨by rw [hl, h.2.2.2.2.1, h.2.2.2.2.2], ?_⟩
  rw [handleHeldKeys_running g h.1 h.2.1, softRepeat_not_down _ hh.2.2.2.1]
  exact hh

theorem holding_heldGame : Holding heldGame das 0 := by
  refine ⟨?_, rfl, rfl, rfl, ?_, rfl⟩
  · decide
  · show (0 : ℚ) + das = das
    simp

/-- One frame of `heldFrames` in a running game: the moves of this call plus
those of the later frames. -/
theorem heldFrames_cons_running (g : Game) (t c dt : ℚ) (dts : List ℚ) (h : Holding g t c) :
    (heldFrames (dt :: dts) g).1
      = (lateralRepeat (elapse dt g)).1 + (heldFrames dts (handleHeldKeys (elapse dt g))).1 := by
  have h' := holding_elapse g t c dt h
  have : ¬ (((elapse dt g).isGameOver || (elapse dt g).isPaused) = true) := by
    simp [h'.1, h'.2.1]
  simp only [heldFrames]
  rw [if_neg this]

theorem holding_congr (g : Game) (t t' c c' : ℚ) (h : Holding g t c) (ht : t = t')
    (hc : c = c') : Holding g t' c' := by
  subst ht hc; exact h

/-- C20 (evaluated): after Left was held for `das` seconds, one further frame
of 0.2 s issues 4 auto-repeat moves, the rate of one move per `arr`; the same
0.2 s split into four frames of 0.05 s issue 1 move only, because the first
burst restarts `lateralRepeatClock` and the later calls wait for `das`
again. -/
theorem autoRepeat_depends_on_frames :
    Holding heldGame das 0
      ∧ (heldFrames [0.2] heldGame).1 = 4
      ∧ (heldFrames [0.05, 0.05, 0.05, 0.05] heldGame).1 = 1
      ∧ (0.05 + 0.05 + 0.05 + 0.05 : ℚ) = 0.2
      ∧ (0.2 : ℚ) / arr = 4 := by
  have H0 := holding_heldGame
  refine ⟨H0, ?_, ?_, by norm_num, by norm_num [arr]⟩
  · -- a single frame of 0.2 s
    have H1 := holding_elapse heldGame das 0 0.2 H0
    have hf := holding_fire _ _ _ H1 (by norm_num [das])
    rw [heldFrames_cons_running heldGame das 0 0.2 [] H0, hf.1]
    have hm : truncToInt ((das + 0.2 - das + 0) / arr) = 4 := by
      norm_num [truncToInt, das, arr]
    rw [hm]
    rfl
  · -- four frames of 0.05 s
    have H1 := holding_elapse heldGame das 0 0.05 H0
    have hf1 := holding_fire _ _ _ H1 (by norm_num [das])
    have hm : truncToInt ((das + 0.05 - das + 0) / arr) = 1 := by
      norm_num [truncToInt, das, arr]
    rw [hm] at hf1
    have H1' := holding_congr _ _ 0 _ 0 hf1.2 rfl (by norm_num [das, arr])
    have H2 := holding_elapse _ _ _ 0.05 H1'
    have hi2 := holding_idle _ _ _ H2 (by norm_num [das])
    have H3 := holding_elapse _ _ _ 0.05 hi2.2
    have hi3 := holding_idle _ _ _ H3 (by norm_num [das])
    have H4 := holding_elapse _ _ _ 0.05 hi3.2
    have hi4 := holding_idle _ _ _ H4 (by norm_num [das])
    rw [heldFrames_cons_running _ _ _ _ _ H0, hf1.1,
      heldFrames_cons_running _ _ _ _ _ H1', hi2.1,
      heldFrames_cons_running _ _ _ _ _ hi2.2, hi3.1,
      heldFrames_cons_running _ _ _ _ _ hi3.2, hi4.1]
    rfl

/-! ## Invariants of a session -/

/-- A property of the playfield that holds in a new game and is kept by the
eight operations holds in every state of a session: the input events,
`handleHeldKeys`, `update` and waits change the playfield through the
operations only. -/
theorem session_playfield_induction (P : Game → Prop)
    (hinit : ∀ shuffle, RandomBag7.Shuffles shuffle → P (newGame shuffle))
    (hop : ∀ (o : Op) (g : Game), P g → P (o.run g))
    (hsame : ∀ a b : Game, SamePlayfield a b → P a → P b)
    (g : Game) (h : Session g) : P g := by
  have hkey : ∀ (g : Game) (code : Key), P g → P (handleGameKey g code) := by
    intro g code hg
    rw [handleGameKey_eq]
    cases code
    · exact hg
    · exact hg
    · exact hop (Op.rotate 1) g hg
    · exact hop (Op.rotate 1) g hg
    · exact hop (Op.rotate (-1)) g hg
    · exact hop Op.hardDrop g hg
    · exact hsame (moveHorizontal g (-1)) _ ⟨rfl, rfl, rfl⟩ (hop (Op.moveHorizontal (-1)) g hg)
    · exact hsame (moveHorizontal g 1) _ ⟨rfl, rfl, rfl⟩ (hop (Op.moveHorizontal 1) g hg)
    · exact hsame g _ ⟨rfl, rfl, rfl⟩ hg
    · exact hg
  have hevent : ∀ (g : Game) (e : Event), P g → P (handleEvent g e) := by
    intro g e hg
    cases e with
    | closed => exact hsame g _ ⟨rfl, rfl, rfl⟩ hg
    | other => exact hg
    | keyReleased code =>
      simp only [handleEvent]
      split_ifs <;> exact hsame g _ ⟨rfl, rfl, rfl⟩ hg
    | keyPressed code =>
      rw [handleEvent_keyPressed_eq]
      have h2 : P (match code with
          | Key.escape => { g with windowOpen := false }
          | Key.p => { g with isPaused := !g.isPaused }
          | _ => g) := by
        cases code <;> first | exact hg | exact hsame g _ ⟨rfl, rfl, rfl⟩ hg
      split_ifs
      · exact h2
      · exact hkey _ code h2
  have hrepeat : ∀ (n : Nat) (g : Game), P g → P (repeatMove n g) := by
    intro n
    induction n with
    | zero => intro g hg; exact hg
    | succ n ih => intro g hg; exact ih _ (hop (Op.moveHorizontal _) g hg)
  have hlateral : ∀ g : Game, P g → P (lateralRepeat g).2 := by
    intro g hg
    unfold lateralRepeat
    simp only []
    split_ifs
    · exact hrepeat _ _ (hsame g _ ⟨rfl, rfl, rfl⟩ hg)
    · exact hg
    · exact hg
  have hsoft : ∀ g : Game, P g → P (softRepeat g) := by
    intro g hg
    unfold softRepeat
    simp only []
    split_ifs
    · exact hop Op.softDropStep _ (hsame g _ ⟨rfl, rfl, rfl⟩ hg)
    · exact hsame g _ ⟨rfl, rfl, rfl⟩ hg
    · exact hg
  have hheld : ∀ g : Game, P g → P (handleHeldKeys g) := by
    intro g hg
    unfold handleHeldKeys
    split_ifs
    · exact hg
    · exact hsoft _ (hlateral g hg)
  have hupdate : ∀ g : Game, P g → P (update g) := by
    intro g hg
    unfold update
    have h1 := hheld g hg
    generalize handleHeldKeys g = g1 at h1
    simp only []
    split_ifs
    · exact h1
    · exact hop Op.gravityStep _ (hsame g1 _ ⟨rfl, rfl, rfl⟩ h1)
    · exact h1
  induction h with
  | init shuffle hs => exact hinit shuffle hs
  | op g o _ ih => exact hop o g ih
  | event g e _ ih => exact hevent g e ih
  | held g _ ih => exact hheld g ih
  | frame g _ ih => exact hupdate g ih
  | wait g dt _ _ ih => exact hsame g _ ⟨rfl, rfl, rfl⟩ ih

theorem emptyBoard_noFullRow : NoFullRow emptyBoard := by
  refine ⟨by decide, ?_⟩
  intro row hrow
  have : row = emptyRow := List.eq_of_mem_replicate hrow
  rw [this]
  exact rowFull_emptyRow

/-- The board left by the loop of `clearLines` on a 20x10 board is a 20x10
board without a full row. -/
theorem cleared_noFullRow (b : Board) (hwf : b.WF) :
    NoFullRow (List.replicate (b.countP rowFull) emptyRow
      ++ b.filter (fun row => !rowFull row)) := by
  refine ⟨⟨?_, ?_⟩, ?_⟩
  · have h1 := List.length_eq_countP_add_countP (p := rowFull) b
    have h2 : List.countP (fun a => decide ¬rowFull a = true) b
        = (b.filter (fun row => !rowFull row)).length := by
      rw [List.countP_eq_length_filter]
      congr 2
      funext a
      cases rowFull a <;> rfl
    rw [List.length_append, List.length_replicate, ← h2, ← h1]
    exact hwf.1
  · intro row hrow
    rcases List.mem_append.mp hrow with h | h
    · rw [List.eq_of_mem_replicate h]; rfl
    · exact hwf.2 row (List.mem_filter.mp h).1
  · intro row hrow
    rcases List.mem_append.mp hrow with h | h
    · rw [List.eq_of_mem_replicate h]; exact rowFull_emptyRow
    · simpa using (List.mem_filter.mp h).2

theorem clearLines_board_noFullRow (g : Game) (hwf : g.board.WF) :
    NoFullRow (clearLines g).board := by
  rw [clearLines_board, clearLinesLoop_board g.board hwf.1]
  exact cleared_noFullRow g.board hwf

/-- On a board without a full row `clearLines` changes nothing. -/
theorem clearLines_noFullRow (g : Game) (h : NoFullRow g.board) : clearLines g = g := by
  have hk : g.board.countP rowFull = 0 :=
    List.countP_eq_zero.mpr (fun row hrow => by simp [h.2 row hrow])
  have hf : g.board.filter (fun row => !rowFull row) = g.board :=
    List.filter_eq_self.mpr (fun row hrow => by simp [h.2 row hrow])
  have hloop := clearLinesLoop_board g.board h.1.1
  rw [hk, hf] at hloop
  unfold clearLines
  rw [hloop]
  simp

theorem spawnNewPiece_validated (g : Game) : Validated (spawnNewPiece g) := by
  unfold Validated
  rw [spawnNewPiece_isGameOver, spawnNewPiece_board, spawnNewPiece_current]
  cases hc : canPlace g.board (spawnPiece g.bag.next.1)
  · left; simp
  · right; rfl

theorem spawnNewPiece_sound (g : Game) (h : NoFullRow g.board) : Sound (spawnNewPiece g) :=
  ⟨by rw [spawnNewPiece_board]; exact h, spawnNewPiece_validated g⟩

theorem lockPiece_sound (g : Game) (hwf : g.board.WF) : Sound (lockPiece g) := by
  unfold lockPiece
  apply spawnNewPiece_sound
  exact clearLines_board_noFullRow { g with board := markPiece g.board g.current }
    (markCells_WF _ _ _ _ hwf _)

theorem kickLoop_placeable (b : Board) (rotated test : Piece) (ks : List Int)
    (h : kickLoop b rotated ks = some test) : canPlace b test = true := by
  induction ks with
  | nil => simp [kickLoop] at h
  | cons k ks ih =>
    rw [kickLoop] at h
    split_ifs at h with hc
    · cases h; exact hc
    · exact ih h

theorem sound_of_samePlayfield (a b : Game) (hab : SamePlayfield a b) (ha : Sound a) :
    Sound b := by
  unfold Sound Validated at *
  rw [← hab.1, ← hab.2.1, ← hab.2.2]
  exact ha

theorem sound_updateGhost (g : Game) (h : Sound g) : Sound (updateGhost g) :=
  sound_of_samePlayfield g (updateGhost g) ⟨rfl, rfl, rfl⟩ h

theorem run_sound (o : Op) (g : Game) (h : Sound g) : Sound (o.run g) := by
  obtain ⟨hb, hv⟩ := h
  cases o with
  | moveHorizontal dx =>
    apply sound_updateGhost
    split_ifs with hc
    · exact ⟨hb, Or.inr hc⟩
    · exact ⟨hb, hv⟩
  | rotate dir =>
    apply sound_updateGhost
    split
    · rename_i test heq
      exact ⟨hb, Or.inr (kickLoop_placeable _ _ _ _ heq)⟩
    · exact ⟨hb, hv⟩
  | softDropStep =>
    apply sound_updateGhost
    split_ifs with hc
    · exact ⟨hb, Or.inr hc⟩
    · exact lockPiece_sound g hb.1
  | gravityStep =>
    apply sound_updateGhost
    split_ifs with hc
    · exact ⟨hb, Or.inr hc⟩
    · exact lockPiece_sound g hb.1
  | hardDrop =>
    apply sound_updateGhost
    exact lockPiece_sound _ hb.1
  | lockPiece => exact lockPiece_sound g hb.1
  | clearLines =>
    show Sound (clearLines g)
    rw [clearLines_noFullRow g hb]
    exact ⟨hb, hv⟩
  | spawnNewPiece => exact spawnNewPiece_sound g hb

theorem session_sound (g : Game) (h : Session g) : Sound g := by
  refine session_playfield_induction Sound ?_ run_sound ?_ g h
  · intro shuffle _
    exact spawnNewPiece_sound _ emptyBoard_noFullRow
  · exact sound_of_samePlayfield

/-! ## Validated current piece -/

/-- C21: in every state of a session, so in every state reached from a new
game by `moveHorizontal`, `rotate`, `softDropStep`, `gravityStep` and
`hardDrop`, either `isGameOver` is set or `canPlace(current)` holds: while the
game runs every cell of the current piece lies within the side walls, above
the floor, and on an empty board cell when its row is not negative. -/
theorem current_piece_validated (g : Game) (h : Session g) :
    (g.isGameOver = true ∨ canPlace g.board g.current = true)
      ∧ (g.isGameOver = false →
          ∀ c ∈ shapeCells g.current.kind g.current.rotation,
            0 ≤ g.current.x + c.x ∧ g.current.x + c.x < COLS ∧ g.current.y + c.y < ROWS
              ∧ (0 ≤ g.current.y + c.y →
                cellAt g.board (g.current.y + c.y).toNat (g.current.x + c.x).toNat = -1)) := by
  have hv := (session_sound g h).2
  refine ⟨hv, ?_⟩
  intro hrun
  rcases hv with hover | hplace
  · rw [hrun] at hover; cases hover
  · exact (canPlaceCells_iff g.board g.current _).mp hplace

theorem current_piece_validated_witness :
    Session (Op.hardDrop.run (Op.rotate 1 |>.run (newGame (fun _ l => l))))
      ∧ ((Op.hardDrop.run (Op.rotate 1 |>.run (newGame (fun _ l => l)))).isGameOver = true
        ∨ canPlace (Op.hardDrop.run (Op.rotate 1 |>.run (newGame (fun _ l => l)))).board
            (Op.hardDrop.run (Op.rotate 1 |>.run (newGame (fun _ l => l)))).current = true) :=
  ⟨Session.op _ _ (Session.op _ _ (Session.init _ (fun _ l => List.Perm.refl l))),
    (current_piece_validated _
      (Session.op _ _ (Session.op _ _ (Session.init _ (fun _ l => List.Perm.refl l))))).1⟩

theorem countP_set_le {α : Type} (P : α → Bool) (l : List α) (i : Nat) (a : α) :
    (l.set i a).countP P ≤ l.countP P + 1 := by
  induction l generalizing i with
  | nil => simp
  | cons x xs ih =>
    cases i with
    | zero =>
      simp only [List.set_cons_zero, List.countP_cons]
      split_ifs <;> omega
    | succ i =>
      simp only [List.set_cons_succ, List.countP_cons]
      have := ih i
      omega

/-- Each marked cell completes at most one row. -/
theorem markCells_countP_le (kind : Nat) (px py : Int) (b : Board) (cells : List Offset) :
    (markCells kind px py b cells).countP rowFull ≤ b.countP rowFull + cells.length := by
  induction cells generalizing b with
  | nil => simp [markCells]
  | cons o os ih =>
    simp only [markCells, List.length_cons]
    split_ifs
    · have h1 := ih (setCell b (py + o.y).toNat (px + o.x).toNat kind)
      have h2 : (setCell b (py + o.y).toNat (px + o.x).toNat kind).countP rowFull
          ≤ b.countP rowFull + 1 := countP_set_le rowFull b _ _
      omega
    · have h1 := ih b
      omega

theorem shapeCells_length_le (kind rotation : Nat) : (shapeCells kind rotation).length ≤ 4 := by
  by_cases hk : kind < 7
  · by_cases hr : rotation < 4
    · rw [shapeCells_length kind rotation hk hr]
    · have h0 : shapeCells kind rotation = [] := by
        unfold shapeCells
        interval_cases kind <;>
          exact List.getD_eq_default _ _ (by simp only [SHAPES, List.getD_cons_zero,
            List.getD_cons_succ, List.length_cons, List.length_nil]; omega)
      rw [h0]; simp
  · have h0 : shapeCells kind rotation = [] := by
      unfold shapeCells
      have : SHAPES.getD kind [] = [] := List.getD_eq_default _ _ (by simp [SHAPES]; omega)
      rw [this]
      rfl
    rw [h0]; simp

/-! ## No full row between operations -/

/-- On a board without a full row, locking any piece completes at most 4
rows. -/
theorem markPiece_countP_le_four (b : Board) (h : NoFullRow b) (p : Piece) :
    (markPiece b p).countP rowFull ≤ 4 := by
  have h0 : b.countP rowFull = 0 :=
    List.countP_eq_zero.mpr (fun row hrow => by simp [h.2 row hrow])
  have h1 := markCells_countP_le p.kind p.x p.y b (shapeCells p.kind p.rotation)
  have h2 := shapeCells_length_le p.kind p.rotation
  unfold markPiece
  omega

/-- C22: from the empty board on, in every state of a session the board is
20x10 without a full row. Hence a lock of any piece clears between 0 and 4
lines: the count `cleared` handed to `scoreForClears` is 1, 2, 3 or 4 whenever
it is positive, so `default: return 0` is never taken with a positive
count. -/
theorem no_full_row_and_at_most_four_lines (g : Game) (h : Session g) :
    g.board.WF
      ∧ (∀ row ∈ g.board, rowFull row = false)
      ∧ (∀ p : Piece,
          (clearLinesLoop clearFuel ((ROWS : Int) - 1) (markPiece g.board p) 0).2
              = ((markPiece g.board p).countP rowFull : Nat)
            ∧ (markPiece g.board p).countP rowFull ≤ 4
            ∧ (0 < (clearLinesLoop clearFuel ((ROWS : Int) - 1) (markPiece g.board p) 0).2 →
                (clearLinesLoop clearFuel ((ROWS : Int) - 1) (markPiece g.board p) 0).2 = 1
                  ∨ (clearLinesLoop clearFuel ((ROWS : Int) - 1) (markPiece g.board p) 0).2 = 2
                  ∨ (clearLinesLoop clearFuel ((ROWS : Int) - 1) (markPiece g.board p) 0).2 = 3
                  ∨ (clearLinesLoop clearFuel ((ROWS : Int) - 1) (markPiece g.board p) 0).2 = 4))
      ∧ g.linesCleared ≤ (lockPiece g).linesCleared
      ∧ (lockPiece g).linesCleared ≤ g.linesCleared + 4
      ∧ clearLines g = g := by
  have hs := (session_sound g h).1
  have hp : ∀ p : Piece,
      (clearLinesLoop clearFuel ((ROWS : Int) - 1) (markPiece g.board p) 0).2
          = ((markPiece g.board p).countP rowFull : Nat)
        ∧ (markPiece g.board p).countP rowFull ≤ 4 := by
    intro p
    have hlen : (markPiece g.board p).length = ROWS := by
      rw [markPiece_length]; exact hs.1.1
    rw [clearLinesLoop_board _ hlen]
    exact ⟨rfl, markPiece_countP_le_four g.board hs p⟩
  refine ⟨hs.1, hs.2, ?_, ?_, ?_, clearLines_noFullRow g hs⟩
  · intro p
    obtain ⟨h1, h2⟩ := hp p
    refine ⟨h1, h2, ?_⟩
    intro hpos
    rw [h1] at hpos ⊢
    omega
  · rw [lockPiece_linesCleared g hs.1.1]
    omega
  · rw [lockPiece_linesCleared g hs.1.1]
    have := (hp g.current).2
    omega

theorem no_full_row_and_at_most_four_lines_witness :
    Session stackedGame ∧ stackedGame.board.WF
      ∧ (∀ row ∈ stackedGame.board, rowFull row = false) :=
  ⟨reachable_session _ reachable_stackedGame,
    (no_full_row_and_at_most_four_lines stackedGame
      (reachable_session _ reachable_stackedGame)).1,
    (no_full_row_and_at_most_four_lines stackedGame
      (reachable_session _ reachable_stackedGame)).2.1⟩

end Tetris

/-! ## Snake -/

namespace Snake

/-! ## Food generation -/

theorem isSnakePosition_iff (l : List Position) (p : Position) :
    isSnakePosition l p = true ↔ p ∈ l := by
  induction l with
  | nil => simp [isSnakePosition]
  | cons seg rest ih =>
    rw [isSnakePosition]
    by_cases h : seg = p
    · simp [h]
    · have h' : ¬ p = seg := fun e => h e.symm
      simp [h, h', ih]

theorem foodDrawn_inGrid (rand : Nat → Nat) (calls n : Nat) : InGrid (foodDrawn rand calls n) := by
  unfold InGrid foodDrawn GRID_WIDTH GRID_HEIGHT
  simp only []
  omega

theorem foodDrawn_shift (rand : Nat → Nat) (calls k : Nat) :
    foodDrawn rand (calls + 2) k = foodDrawn rand calls (k + 1) := by
  unfold foodDrawn
  have e1 : calls + 2 + 2 * k = calls + 2 * (k + 1) := by omega
  rw [e1]

/-- One pass of the loop of `generateFood`. -/
theorem generateFood_succ (fuel : Nat) (g : SnakeGame) :
    generateFood (fuel + 1) g =
      if isSnakePosition g.snake (foodDrawn g.rand g.randCalls 0) then
        generateFood fuel
          { g with food := foodDrawn g.rand g.randCalls 0, randCalls := g.randCalls + 2 }
      else some { g with food := foodDrawn g.rand g.randCalls 0, randCalls := g.randCalls + 2 } := by
  rw [generateFood]
  rfl

/-- A returning call of `generateFood` changes the food and the count of
calls of `rand` only; the food is in the grid and not on the snake. -/
theorem generateFood_some (fuel : Nat) (g g' : SnakeGame) (h : generateFood fuel g = some g') :
    ∃ n, n < fuel ∧ g' = { g with
        food := foodDrawn g.rand g.randCalls n, randCalls := g.randCalls + 2 * (n + 1) }
      ∧ foodDrawn g.rand g.randCalls n ∉ g.snake
      ∧ ∀ k < n, foodDrawn g.rand g.randCalls k ∈ g.snake := by
  induction fuel generalizing g with
  | zero => simp [generateFood] at h
  | succ fuel ih =>
    rw [generateFood_succ] at h
    by_cases hs : isSnakePosition g.snake (foodDrawn g.rand g.randCalls 0) = true
    · rw [if_pos hs] at h
      obtain ⟨n, hn, hg, hfree, hbusy⟩ := ih _ h
      dsimp only at hg hfree hbusy
      simp only [foodDrawn_shift] at hg hfree hbusy
      refine ⟨n + 1, by omega, ?_, hfree, ?_⟩
      · rw [hg]
        have e : g.randCalls + 2 + 2 * (n + 1) = g.randCalls + 2 * (n + 1 + 1) := by omega
        simp only [e]
      · intro k hk
        cases k with
        | zero => exact (isSnakePosition_iff _ _).mp hs
        | succ k => exact hbusy k (by omega)
    · rw [if_neg hs] at h
      refine ⟨0, by omega, ?_, ?_, ?_⟩
      · cases h; rfl
      · exact fun hmem => hs ((isSnakePosition_iff _ _).mpr hmem)
      · intro k hk; omega

/-- The loop of `generateFood` returns as soon as a pass within the budget
draws a free cell. -/
theorem generateFood_returns (fuel : Nat) (g : SnakeGame) (n : Nat) (hn : n < fuel)
    (hfree : foodDrawn g.rand g.randCalls n ∉ g.snake) :
    ∃ g', generateFood fuel g = some g' := by
  induction fuel generalizing g n with
  | zero => omega
  | succ fuel ih =>
    rw [generateFood_succ]
    by_cases hs : isSnakePosition g.snake (foodDrawn g.rand g.randCalls 0) = true
    · rw [if_pos hs]
      cases n with
      | zero => exact absurd ((isSnakePosition_iff _ _).mp hs) hfree
      | succ n =>
        apply ih _ n (by omega)
        show foodDrawn g.rand (g.randCalls + 2) n ∉ g.snake
        rw [foodDrawn_shift]; exact hfree
    · rw [if_neg hs]
      exact ⟨_, rfl⟩

/-- With every cell of the grid on the snake `generateFood` uses up any
budget. -/
theorem generateFood_full (fuel : Nat) (g : SnakeGame)
    (hfull : ∀ p : Position, InGrid p → p ∈ g.snake) : generateFood fuel g = none := by
  induction fuel generalizing g with
  | zero => rfl
  | succ fuel ih =>
    rw [generateFood_succ]
    have hs : isSnakePosition g.snake (foodDrawn g.rand g.randCalls 0) = true :=
      (isSnakePosition_iff _ _).mpr (hfull _ (foodDrawn_inGrid _ _ _))
    rw [if_pos hs]
    exact ih _ hfull

/-! ## The move of the snake -/

theorem applyNextDir_snake (g : SnakeGame) : (applyNextDir g).snake = g.snake := by
  unfold applyNextDir; split_ifs <;> rfl

theorem applyNextDir_food (g : SnakeGame) : (applyNextDir g).food = g.food := by
  unfold applyNextDir; split_ifs <;> rfl

theorem applyNextDir_score (g : SnakeGame) : (applyNextDir g).score = g.score := by
  unfold applyNextDir; split_ifs <;> rfl

theorem applyNextDir_gameOver (g : SnakeGame) : (applyNextDir g).gameOver = g.gameOver := by
  unfold applyNextDir; split_ifs <;> rfl

theorem applyNextDir_rand (g : SnakeGame) :
    (applyNextDir g).rand = g.rand ∧ (applyNextDir g).randCalls = g.randCalls := by
  unfold applyNextDir; split_ifs <;> exact ⟨rfl, rfl⟩

theorem applyNextDir_nextDir (g : SnakeGame) : (applyNextDir g).nextDir = Direction.NONE := by
  unfold applyNextDir
  split_ifs with h
  · rfl
  · simpa using h

theorem inGrid_iff (p : Position) :
    InGrid p ↔ ¬ (p.x < 0 ∨ p.x ≥ GRID_WIDTH ∨ p.y < 0 ∨ p.y ≥ GRID_HEIGHT) := by
  unfold InGrid
  constructor
  · intro h; omega
  · intro h; omega

/-- The branches of `moveSnake` in terms of the new head. -/
theorem moveSnake_eq (fuel : Nat) (g : SnakeGame) :
    moveSnake fuel g =
      match newHead g with
      | none => some (applyNextDir g)
      | some head =>
        if head.x < 0 ∨ head.x ≥ GRID_WIDTH ∨ head.y < 0 ∨ head.y ≥ GRID_HEIGHT then
          some { applyNextDir g with gameOver := true }
        else if isSnakePosition g.snake head then
          some { applyNextDir g with gameOver := true }
        else if head = g.food then
          generateFood fuel
            { applyNextDir g with snake := head :: g.snake, score := g.score + 1 }
        else some { applyNextDir g with snake := (head :: g.snake).dropLast } := by
  unfold moveSnake newHead
  simp only [applyNextDir_snake, applyNextDir_food, applyNextDir_score]

theorem body_cons (g : SnakeGame) (head : Position) (hbody : Body g) (hin : InGrid head)
    (hfree : head ∉ g.snake) :
    (head :: g.snake).Nodup ∧ ∀ seg ∈ head :: g.snake, InGrid seg := by
  refine ⟨List.nodup_cons.mpr ⟨hfree, hbody.1⟩, ?_⟩
  intro seg hseg
  rcases List.mem_cons.mp hseg with rfl | h
  · exact hin
  · exact hbody.2 seg h

/-- The outcomes of a returning `moveSnake` on a snake of pairwise distinct
segments inside the grid: game over with the body unchanged when the new head
leaves the grid or hits a segment; otherwise a body of pairwise distinct
segments inside the grid, longer by 1 together with the score when the new
head is the food, of the same length and score when it is not. -/
theorem moveSnake_outcome (fuel : Nat) (g g' : SnakeGame) (hbody : Body g)
    (hm : moveSnake fuel g = some g') :
    (g'.gameOver = true ∧ g'.snake = g.snake ∧ g'.score = g.score
        ∧ ∃ head, newHead g = some head ∧ (¬ InGrid head ∨ head ∈ g.snake))
      ∨ (g'.gameOver = g.gameOver ∧ Body g'
        ∧ ((∃ head, newHead g = some head ∧ head = g.food ∧ g'.snake = head :: g.snake
              ∧ g'.snake.length = g.snake.length + 1 ∧ g'.score = g.score + 1
              ∧ InGrid g'.food ∧ g'.food ∉ g'.snake)
          ∨ (newHead g ≠ some g.food ∧ g'.snake.length = g.snake.length
              ∧ g'.score = g.score ∧ g'.food = g.food
              ∧ ∀ head, newHead g = some head → g'.snake = (head :: g.snake).dropLast))) := by
  rw [moveSnake_eq] at hm
  cases hnh : newHead g with
  | none =>
    rw [hnh] at hm
    simp only [Option.some.injEq] at hm
    subst hm
    right
    refine ⟨applyNextDir_gameOver g, ?_, Or.inr ⟨by simp, ?_, applyNextDir_score g,
      applyNextDir_food g, ?_⟩⟩
    · unfold Body; rw [applyNextDir_snake]; exact hbody
    · rw [applyNextDir_snake]
    · intro head hh; cases hh
  | some head =>
    rw [hnh] at hm
    simp only [] at hm
    by_cases hout : head.x < 0 ∨ head.x ≥ GRID_WIDTH ∨ head.y < 0 ∨ head.y ≥ GRID_HEIGHT
    · rw [if_pos hout] at hm
      simp only [Option.some.injEq] at hm
      subst hm
      left
      exact ⟨rfl, applyNextDir_snake g, applyNextDir_score g, head, rfl,
        Or.inl (fun hin => (inGrid_iff head).mp hin hout)⟩
    · rw [if_neg hout] at hm
      have hin : InGrid head := (inGrid_iff head).mpr hout
      by_cases hself : isSnakePosition g.snake head = true
      · rw [if_pos hself] at hm
        simp only [Option.some.injEq] at hm
        subst hm
        left
        exact ⟨rfl, applyNextDir_snake g, applyNextDir_score g, head, rfl,
          Or.inr ((isSnakePosition_iff _ _).mp hself)⟩
      · rw [if_neg hself] at hm
        have hfree : head ∉ g.snake := fun hmem => hself ((isSnakePosition_iff _ _).mpr hmem)
        have hcons := body_cons g head hbody hin hfree
        by_cases hfood : head = g.food
        · rw [if_pos hfood] at hm
          obtain ⟨n, _, hg', hnot, _⟩ := generateFood_some _ _ _ hm
          dsimp only at hg' hnot
          subst hg'
          right
          refine ⟨applyNextDir_gameOver g, hcons, Or.inl ⟨head, rfl, hfood, rfl, ?_, rfl,
            foodDrawn_inGrid _ _ _, hnot⟩⟩
          simp
        · rw [if_neg hfood] at hm
          simp only [Option.some.injEq] at hm
          subst hm
          right
          refine ⟨applyNextDir_gameOver g, ⟨?_, ?_⟩, Or.inr ⟨?_, ?_, applyNextDir_score g,
            applyNextDir_food g, ?_⟩⟩
          · exact List.Nodup.sublist (List.dropLast_sublist _) hcons.1
          · intro seg hseg
            exact hcons.2 seg ((List.dropLast_sublist _).subset hseg)
          · intro h
            simp only [Option.some.injEq] at h
            exact hfood h
          · simp
          · intro head' hh
            simp only [Option.some.injEq] at hh
            subst hh
            rfl

/-- The method `moveSnake` returns with any budget unless the new head is the
food; then it returns once a pass of `generateFood` within the budget draws a
cell off the grown snake. -/
theorem moveSnake_returns (fuel : Nat) (g : SnakeGame) :
    (newHead g ≠ some g.food → ∃ g', moveSnake fuel g = some g')
      ∧ (∀ n, n < fuel → foodDrawn g.rand g.randCalls n ∉ g.food :: g.snake →
          ∃ g', moveSnake fuel g = some g') := by
  rw [moveSnake_eq]
  cases hnh : newHead g with
  | none => exact ⟨fun _ => ⟨_, rfl⟩, fun _ _ _ => ⟨_, rfl⟩⟩
  | some head =>
    simp only []
    by_cases hout : head.x < 0 ∨ head.x ≥ GRID_WIDTH ∨ head.y < 0 ∨ head.y ≥ GRID_HEIGHT
    · rw [if_pos hout]; exact ⟨fun _ => ⟨_, rfl⟩, fun _ _ _ => ⟨_, rfl⟩⟩
    · rw [if_neg hout]
      by_cases hself : isSnakePosition g.snake head = true
      · rw [if_pos hself]; exact ⟨fun _ => ⟨_, rfl⟩, fun _ _ _ => ⟨_, rfl⟩⟩
      · rw [if_neg hself]
        by_cases hfood : head = g.food
        · rw [if_pos hfood]
          refine ⟨fun h => absurd (by rw [hfood]) h, ?_⟩
          intro n hn hfree
          apply generateFood_returns fuel _ n hn
          show foodDrawn (applyNextDir g).rand (applyNextDir g).randCalls n ∉ head :: g.snake
          rw [(applyNextDir_rand g).1, (applyNextDir_rand g).2, hfood]
          exact hfree
        · rw [if_neg hfood]; exact ⟨fun _ => ⟨_, rfl⟩, fun _ _ _ => ⟨_, rfl⟩⟩

/-! ## The full grid -/

theorem pathCell_inj (i j : Nat) (h : pathCell i = pathCell j) : i = j := by
  unfold pathCell at h
  simp only [Position.mk.injEq, Nat.cast_inj] at h
  obtain ⟨hx, hy⟩ := h
  split_ifs at hx <;> omega

theorem pathCell_inGrid (i : Nat) (hi : i < 400) : InGrid (pathCell i) := by
  unfold InGrid pathCell GRID_WIDTH GRID_HEIGHT
  simp only []
  split_ifs <;> omega

/-- Every cell of the grid is a cell of the path. -/
theorem pathCell_surj (p : Position) (hp : InGrid p) : ∃ i, i < 400 ∧ pathCell i = p := by
  obtain ⟨hx0, hx1, hy0, hy1⟩ := hp
  unfold GRID_WIDTH at hx1
  unfold GRID_HEIGHT at hy1
  obtain ⟨x, hx⟩ : ∃ x : Nat, p.x = x := ⟨p.x.toNat, by omega⟩
  obtain ⟨y, hy⟩ : ∃ y : Nat, p.y = y := ⟨p.y.toNat, by omega⟩
  have hxlt : x < 20 := by omega
  have hylt : y < 20 := by omega
  refine ⟨20 * y + (if y % 2 = 0 then x else 19 - x), ?_, ?_⟩
  · split_ifs <;> omega
  · have hdiv : (20 * y + (if y % 2 = 0 then x else 19 - x)) / 20 = y := by
      split_ifs <;> omega
    have hmod : (20 * y + (if y % 2 = 0 then x else 19 - x)) % 20
        = (if y % 2 = 0 then x else 19 - x) := by
      split_ifs <;> omega
    unfold pathCell
    rw [hdiv, hmod]
    cases p with
    | mk px py =>
      simp only [] at hx hy
      subst hx hy
      simp only [Position.mk.injEq, Nat.cast_inj, and_true]
      split_ifs <;> omega

theorem fullGridGame_body (rand : Nat → Nat) (calls : Nat) : Body (fullGridGame rand calls) := by
  constructor
  · exact List.Nodup.map_on
      (fun i _ j _ hij => by have := pathCell_inj _ _ hij; omega) (List.nodup_range 399)
  · intro seg hseg
    obtain ⟨i, hi, rfl⟩ := List.mem_map.mp hseg
    exact pathCell_inGrid _ (by have := List.mem_range.mp hi; omega)

theorem fullGridGame_food_free (rand : Nat → Nat) (calls : Nat) :
    (fullGridGame rand calls).food ∉ (fullGridGame rand calls).snake := by
  intro hmem
  obtain ⟨i, _, hi⟩ := List.mem_map.mp hmem
  have := pathCell_inj _ _ hi
  omega

theorem fullGridGame_newHead (rand : Nat → Nat) (calls : Nat) :
    newHead (fullGridGame rand calls) = some (fullGridGame rand calls).food := by
  rfl

/-- Once the head has taken the food the snake covers the grid. -/
theorem fullGridGame_grown (rand : Nat → Nat) (calls : Nat) (p : Position) (hp : InGrid p) :
    p ∈ (fullGridGame rand calls).food :: (fullGridGame rand calls).snake := by
  obtain ⟨i, hi, rfl⟩ := pathCell_surj p hp
  cases i with
  | zero => exact List.mem_cons_self _ _
  | succ j =>
    apply List.mem_cons_of_mem
    exact List.mem_map.mpr ⟨j, List.mem_range.mpr (by omega), rfl⟩

/-- C23 (evaluated): `fullGridGame` is a running game whose 399 segments are
pairwise distinct and inside the grid, with score = length - 3 and the food on
the last free cell, which is the new head. There `moveSnake` neither sets
`gameOver` nor returns the grown snake: for every outcome of `rand` and every
budget the loop of `generateFood` finds no cell off the snake. -/
theorem moveSnake_full_grid_never_returns :
    (∀ (rand : Nat → Nat) (calls : Nat),
        Body (fullGridGame rand calls)
          ∧ (fullGridGame rand calls).snake.length = 399
          ∧ (fullGridGame rand calls).score = (fullGridGame rand calls).snake.length - 3
          ∧ (fullGridGame rand calls).gameOver = false
          ∧ newHead (fullGridGame rand calls) = some (fullGridGame rand calls).food
          ∧ InGrid (fullGridGame rand calls).food
          ∧ (fullGridGame rand calls).food ∉ (fullGridGame rand calls).snake)
      ∧ ∀ (rand : Nat → Nat) (calls fuel : Nat),
          moveSnake fuel (fullGridGame rand calls) = none := by
  constructor
  · intro rand calls
    refine ⟨fullGridGame_body rand calls, by simp [fullGridGame], ?_, rfl,
      fullGridGame_newHead rand calls, pathCell_inGrid 0 (by omega),
      fullGridGame_food_free rand calls⟩
    simp [fullGridGame]
  · intro rand calls fuel
    have hin : InGrid (fullGridGame rand calls).food := pathCell_inGrid 0 (by omega)
    have hout : ¬ ((fullGridGame rand calls).food.x < 0
        ∨ (fullGridGame rand calls).food.x ≥ GRID_WIDTH
        ∨ (fullGridGame rand calls).food.y < 0
        ∨ (fullGridGame rand calls).food.y ≥ GRID_HEIGHT) := (inGrid_iff _).mp hin
    have hself : ¬ (isSnakePosition (fullGridGame rand calls).snake
        (fullGridGame rand calls).food = true) :=
      fun h => fullGridGame_food_free rand calls ((isSnakePosition_iff _ _).mp h)
    rw [moveSnake_eq, fullGridGame_newHead]
    simp only []
    rw [if_neg hout, if_neg hself, if_pos trivial]
    apply generateFood_full
    intro p hp
    exact fullGridGame_grown rand calls p hp

theorem moveSnake_dir (fuel : Nat) (g g' : SnakeGame) (hm : moveSnake fuel g = some g') :
    g'.dir = (applyNextDir g).dir ∧ g'.nextDir = Direction.NONE := by
  rw [moveSnake_eq] at hm
  have hn := applyNextDir_nextDir g
  cases hnh : newHead g with
  | none =>
    rw [hnh] at hm
    simp only [Option.some.injEq] at hm
    subst hm
    exact ⟨rfl, hn⟩
  | some head =>
    rw [hnh] at hm
    simp only [] at hm
    split_ifs at hm
    · simp only [Option.some.injEq] at hm; subst hm; exact ⟨rfl, hn⟩
    · simp only [Option.some.injEq] at hm; subst hm; exact ⟨rfl, hn⟩
    · obtain ⟨n, _, hg', _, _⟩ := generateFood_some _ _ _ hm
      subst hg'
      exact ⟨rfl, hn⟩
    · simp only [Option.some.injEq] at hm; subst hm; exact ⟨rfl, hn⟩

/-- The direction applied by `moveSnake` is the pending one if there is one,
else the current one; under the invariant it is not the opposite of the
current one. -/
theorem applyNextDir_not_opposite (g : SnakeGame) (hd : g.dir ≠ Direction.NONE)
    (hv : isOpposite g.nextDir g.dir = false) :
    isOpposite (applyNextDir g).dir g.dir = false ∧ (applyNextDir g).dir ≠ Direction.NONE := by
  unfold applyNextDir
  split_ifs with h
  · exact ⟨hv, h⟩
  · refine ⟨?_, hd⟩
    cases hdir : g.dir <;> rfl

theorem handleEvent_inv (g : SnakeGame) (e : Event) (h : RunInv g) :
    RunInv (handleEvent g e) ∧ (handleEvent g e).dir = g.dir
      ∧ (handleEvent g e).snake = g.snake
      ∧ ((handleEvent g e).gameOver = false → g.gameOver = false) := by
  obtain ⟨hb, hl, hs, hd, hv, hn⟩ := h
  cases e with
  | closed => exact ⟨⟨hb, hl, hs, hd, hv, fun h => by cases h⟩, rfl, rfl, fun h => by cases h⟩
  | other => exact ⟨⟨hb, hl, hs, hd, hv, hn⟩, rfl, rfl, fun h => h⟩
  | keyPressed code =>
    cases code
    case escape =>
      exact ⟨⟨hb, hl, hs, hd, hv, fun h => by cases h⟩, rfl, rfl, fun h => by cases h⟩
    case other => exact ⟨⟨hb, hl, hs, hd, hv, hn⟩, rfl, rfl, fun h => h⟩
    all_goals
      simp only [handleEvent]
      split_ifs with hc
      · refine ⟨⟨hb, hl, hs, hd, ?_, hn⟩, rfl, rfl, fun h => h⟩
        simp only []
        cases hdir : g.dir <;> first | rfl | exact absurd hdir hc
      · exact ⟨⟨hb, hl, hs, hd, hv, hn⟩, rfl, rfl, fun h => h⟩

theorem handleInput_inv (g : SnakeGame) (events : List Event) (h : RunInv g) :
    RunInv (handleInput g events) ∧ (handleInput g events).dir = g.dir
      ∧ (handleInput g events).snake = g.snake
      ∧ ((handleInput g events).gameOver = false → g.gameOver = false) := by
  induction events generalizing g with
  | nil => exact ⟨h, rfl, rfl, fun h => h⟩
  | cons e es ih =>
    rw [handleInput]
    split_ifs
    · obtain ⟨h1, h2, h3, h4⟩ := handleEvent_inv g e h
      obtain ⟨k1, k2, k3, k4⟩ := ih _ h1
      exact ⟨k1, by rw [k2, h2], by rw [k3, h3], fun hh => h4 (k4 hh)⟩
    · exact ⟨h, rfl, rfl, fun h => h⟩

theorem initial_snake_eq :
    ([⟨GRID_WIDTH / 2, GRID_HEIGHT / 2⟩, ⟨GRID_WIDTH / 2 - 1, GRID_HEIGHT / 2⟩,
        ⟨GRID_WIDTH / 2 - 2, GRID_HEIGHT / 2⟩] : List Position)
      = [⟨10, 10⟩, ⟨9, 10⟩, ⟨8, 10⟩] := by decide

theorem newSnakeGame_inv (fuel : Nat) (rand : Nat → Nat) (g : SnakeGame)
    (h : newSnakeGame fuel rand = some g) : RunInv g ∧ g.nextDir = Direction.NONE := by
  obtain ⟨n, _, hg, _, _⟩ := generateFood_some _ _ _ h
  have hsn : g.snake = [⟨10, 10⟩, ⟨9, 10⟩, ⟨8, 10⟩] := by rw [hg]; exact initial_snake_eq
  have hdir : g.dir = Direction.RIGHT := by rw [hg]
  have hnext : g.nextDir = Direction.NONE := by rw [hg]
  have hscore : g.score = 0 := by rw [hg]
  refine ⟨⟨⟨?_, ?_⟩, ?_, ?_, ?_, ?_, fun _ => ?_⟩, hnext⟩
  · rw [hsn]; decide
  · rw [hsn]
    intro seg hseg
    simp only [List.mem_cons, List.mem_singleton, List.not_mem_nil, or_false] at hseg
    rcases hseg with rfl | rfl | rfl <;> simp [InGrid, GRID_WIDTH, GRID_HEIGHT]
  · rw [hsn]; decide
  · rw [hsn, hscore]; rfl
  · rw [hdir]; intro hc; cases hc
  · rw [hnext]; rfl
  · refine ⟨_, _, _, hsn, ?_⟩
    rw [hdir]; rfl

theorem neckBehind_of_move (g g' : SnakeGame) (head : Position) (tl : List Position)
    (hdir : g'.dir = (applyNextDir g).dir) (hlen : 2 ≤ g.snake.length)
    (hnh : newHead g = some head) (hs : g'.snake = head :: tl)
    (htl : tl = g.snake ∨ tl = g.snake.dropLast) : NeckBehind g' := by
  match hsn : g.snake, hlen with
  | a :: b :: rest, _ =>
    have hmv : movedHead g'.dir a = some head := by
      rw [hdir]; unfold newHead at hnh; rw [hsn] at hnh; exact hnh
    rcases htl with htl | htl
    · exact ⟨head, a, b :: rest, by rw [hs, htl, hsn], hmv⟩
    · refine ⟨head, a, (b :: rest).dropLast, ?_, hmv⟩
      rw [hs, htl, hsn]; rfl

theorem moveSnake_inv (fuel : Nat) (g g' : SnakeGame) (h : RunInv g)
    (hm : moveSnake fuel g = some g') : RunInv g' ∧ g'.nextDir = Direction.NONE := by
  obtain ⟨hb, hl, hs, hd, hv, hn⟩ := h
  obtain ⟨hdir, hnext⟩ := moveSnake_dir fuel g g' hm
  obtain ⟨hno, hnn⟩ := applyNextDir_not_opposite g hd hv
  have hnd : g'.dir ≠ Direction.NONE := by rw [hdir]; exact hnn
  have hvo : isOpposite g'.nextDir g'.dir = false := by rw [hnext]; rfl
  obtain ⟨head, hnh⟩ : ∃ head, newHead g = some head := by
    unfold newHead
    cases hc : (applyNextDir g).dir <;> first | exact absurd hc hnn | exact ⟨_, rfl⟩
  refine ⟨?_, hnext⟩
  rcases moveSnake_outcome fuel g g' hb hm with ⟨hgo, hsn, hsc, _⟩ | ⟨hgo, hb', hcase⟩
  · refine ⟨⟨?_, ?_⟩, ?_, ?_, hnd, hvo, fun hf => ?_⟩
    · rw [hsn]; exact hb.1
    · rw [hsn]; exact hb.2
    · rw [hsn]; exact hl
    · rw [hsn, hsc]; exact hs
    · rw [hgo] at hf; cases hf
  · rcases hcase with ⟨head2, hnh2, _, hsn, hlen, hsc, _, _⟩ | ⟨_, hlen, hsc, _, hsn⟩
    · refine ⟨hb', by omega, ?_, hnd, hvo, fun _ => ?_⟩
      · rw [hlen, hsc, hs]; push_cast; ring
      · exact neckBehind_of_move g g' head2 g.snake hdir (by omega) hnh2 hsn (Or.inl rfl)
    · refine ⟨hb', by omega, ?_, hnd, hvo, fun _ => ?_⟩
      · rw [hlen, hsc, hs]
      · have hsn2 := hsn head hnh
        match hsnk : g.snake, hl with
        | a :: b :: rest, _ =>
          rw [hsnk] at hsn2
          exact neckBehind_of_move g g' head ((a :: b :: rest).dropLast) hdir (by omega) hnh
            hsn2 (Or.inr (by rw [hsnk]))

/-- Every state of a run satisfies the invariant: the segments are pairwise
distinct and inside the grid, there are at least 3 of them,
`score = length - 3`, `dir` is one of the four directions, the pending
direction is not the opposite of `dir`, and while the game is running the
second segment lies directly behind the head. -/
theorem run_inv (g : SnakeGame) (h : Run g) : RunInv g := by
  induction h with
  | init fuel rand g h => exact (newSnakeGame_inv fuel rand g h).1
  | input g events _ ih => exact (handleInput_inv g events ih).1
  | move g g' fuel _ hm ih => exact (moveSnake_inv fuel g g' ih hm).1

/-- In every reachable state `score = length - 3`. -/
theorem run_score (g : SnakeGame) (h : Run g) : g.score = (g.snake.length : Int) - 3 :=
  (run_inv g h).2.2.1

/-- A head moved in a direction that is not the opposite of the direction
in which the neck was left does not land on the neck. -/
theorem movedHead_ne_neck (d d' : Direction) (neck hd head : Position)
    (hback : movedHead d neck = some hd) (hmove : movedHead d' hd = some head)
    (hopp : isOpposite d' d = false) : head ≠ neck := by
  intro heq
  subst heq
  cases d <;> cases d' <;>
    simp only [movedHead, isOpposite, Option.some.injEq, reduceCtorEq, Bool.true_eq_false]
      at hback hmove hopp <;>
    (subst hback
     have hx := congrArg Position.x hmove
     have hy := congrArg Position.y hmove
     simp only at hx hy
     omega)

/-! ### No reversal -/

theorem startGame_run : Run startGame :=
  Run.init 1 zeroRand startGame rfl

/-- C24: let `g` be any state of a run, for instance the state left by a
move, whose `dir` is the direction that move applied. Whatever events
`handleInput` handles before the next move, `dir` is unchanged by them, and the
direction that `moveSnake` then applies (the pending `nextDir` if there is
one, else `dir`) is not the exact opposite of `g.dir`; every result of
`moveSnake` carries that direction and no pending one. While the game is
running (the only case in which `run` calls `moveSnake`) the snake has a
neck and the head computed by `moveSnake` is not the neck. -/
theorem snake_never_reverses (g : SnakeGame) (h : Run g) (events : List Event) :
    (handleInput g events).dir = g.dir
      ∧ isOpposite (applyNextDir (handleInput g events)).dir g.dir = false
      ∧ (∀ fuel g', moveSnake fuel (handleInput g events) = some g' →
          g'.dir = (applyNextDir (handleInput g events)).dir ∧ g'.nextDir = Direction.NONE
            ∧ isOpposite g'.dir g.dir = false)
      ∧ ((handleInput g events).gameOver = false →
          ∃ hd neck rest, (handleInput g events).snake = hd :: neck :: rest
            ∧ ∀ head, newHead (handleInput g events) = some head → head ≠ neck) := by
  obtain ⟨hinv, hdir, _, _⟩ := handleInput_inv g events (run_inv g h)
  obtain ⟨_, _, _, hd, hv, hn⟩ := hinv
  obtain ⟨hno, _⟩ := applyNextDir_not_opposite (handleInput g events) hd hv
  have hno2 : isOpposite (applyNextDir (handleInput g events)).dir g.dir = false := by
    rw [← hdir]; exact hno
  refine ⟨hdir, hno2, ?_, ?_⟩
  · intro fuel g' hm
    obtain ⟨h1, h2⟩ := moveSnake_dir fuel _ g' hm
    exact ⟨h1, h2, by rw [h1]; exact hno2⟩
  · intro hrun
    obtain ⟨hd0, neck, rest, hsn, hback⟩ := hn hrun
    refine ⟨hd0, neck, rest, hsn, ?_⟩
    intro head hnh
    unfold newHead at hnh
    rw [hsn] at hnh
    exact movedHead_ne_neck _ _ neck hd0 head hback hnh hno

theorem snake_never_reverses_witness :
    Run startGame
      ∧ (applyNextDir (handleInput startGame
            [Event.keyPressed Key.up, Event.keyPressed Key.left])).dir = Direction.UP
      ∧ isOpposite (applyNextDir (handleInput startGame
            [Event.keyPressed Key.up, Event.keyPressed Key.left])).dir startGame.dir = false :=
  ⟨startGame_run, rfl,
    (snake_never_reverses startGame startGame_run
      [Event.keyPressed Key.up, Event.keyPressed Key.left]).2.1⟩

end Snake
